import Mathlib

/-!
Shallow embedding of the games-automation pipeline
(`src/modules/grading.py`, `src/modules/winners.py`, `src/modules/mail.py`,
`src/helpers/sheet_ratelimit.py`, `src/helpers/improved_rate_limiting.py`)
together with theorems settling the specification claims.

Modelling conventions:
* Python strings are Lean `String`s; the Python operations `str.strip`,
  `str.lower`, `str.splitlines`, `re.sub(r"\s+", " ", ...)` are re-implemented
  below over `List Char` with Python's semantics (ASCII case folding; the
  whitespace set covers the characters occurring in this pipeline's data,
  including the non-breaking space U+00A0 that the code handles explicitly).
* Spreadsheet worksheets are `List (List String)` (row-major, row 1 first).
* `datetime` values produced by `dateutil.parser.parse` are opaque instants;
  the embedding takes the parser as a function argument `parseDt : String →
  Option Int` (only the order on instants matters to the code under study).
* Python `float` arithmetic of `_parse_grade_confidence` is modelled with
  exact rationals; the decimal literals appearing there are exact in both.
* Calls to the OpenAI grading service are modelled as function arguments
  (`genFn`, `gradeFn`); `random.choice` is modelled by an arbitrary index
  argument `pickIdx`, interpreted modulo the pool length.
-/

namespace GamesAuto

/-! ## Python string primitives -/

/-- The whitespace predicate used for Python `str.strip()` / `\s`. -/
def pyIsSpace (c : Char) : Bool :=
  c = ' ' || c = '\t' || c = '\n' || c = '\r' ||
  c = '\x0b' || c = '\x0c' || c = '\u00A0'

/-- Python `str.strip()` on a character list. -/
def stripChars (l : List Char) : List Char :=
  (l.dropWhile pyIsSpace).reverse.dropWhile pyIsSpace |>.reverse

/-- Python `str.strip()`. -/
def pyStrip (s : String) : String := ⟨stripChars s.data⟩

/-- Python `str.lower()` (ASCII case folding, which covers this data). -/
def pyLower (s : String) : String := ⟨s.data.map Char.toLower⟩

/-- `s.strip().lower()`, the pervasive normalization in the source. -/
def stripLower (s : String) : String := pyLower (pyStrip s)

/-- `re.sub(r"\s+", " ", ·)` as a one-pass state machine: the flag says
whether we are inside a whitespace run (already replaced by one space). -/
def collapseAux : Bool → List Char → List Char
  | _, [] => []
  | inRun, c :: cs =>
    if pyIsSpace c then
      if inRun then collapseAux true cs
      else ' ' :: collapseAux true cs
    else c :: collapseAux false cs

def collapseWsChars (l : List Char) : List Char := collapseAux false l

/-- `re.sub(r"\s+", " ", s)`: each maximal whitespace run becomes one
space. -/
def collapseWs (s : String) : String := ⟨collapseWsChars s.data⟩

/-- Case-insensitive check that `s` begins with the (lowercase) pattern `pat`;
ASCII folding as in `re.IGNORECASE` over this data. -/
def ciStartsWith (pat : List Char) (s : List Char) : Bool :=
  pat.isPrefixOf (s.take pat.length |>.map Char.toLower)

/-- Python `str.capitalize()`: first character upper-cased, rest lower-cased. -/
def pyCapitalize (s : String) : String :=
  match s.data with
  | [] => ""
  | c :: cs => ⟨c.toUpper :: cs.map Char.toLower⟩

/-- Python string `<`: lexicographic comparison by code point. -/
def charListLt : List Char → List Char → Bool
  | [], [] => false
  | [], _ :: _ => true
  | _ :: _, [] => false
  | a :: as, b :: bs =>
    if a.toNat < b.toNat then true
    else if b.toNat < a.toNat then false
    else charListLt as bs

/-- Python string `<=` (total order: `a <= b` iff `not (b < a)`). -/
def strLeb (a b : String) : Bool := ! charListLt b.data a.data

/-- Insert before the first element not `le`-below `a` (the insertion step
of a stable sort). -/
def insertLe {α : Type} (le : α → α → Bool) (a : α) : List α → List α
  | [] => [a]
  | b :: l => if le a b then a :: b :: l else b :: insertLe le a l

/-- Stable sort by a total `Bool` comparator.  Python's `sorted` is a
stable sort, and stable sorts agree extensionally, so this models
`sorted(..., key=...)`. -/
def sortLe {α : Type} (le : α → α → Bool) : List α → List α
  | [] => []
  | x :: xs => insertLe le x (sortLe le xs)

/-! ## `grading.is_marked_correct` (src/modules/grading.py:363-371) -/

/-- A submission row as the grading / winners code reads it. -/
structure Entry where
  override : String
  aiGrade : String
  deriving Repr, DecidableEq

/-- `is_marked_correct(entry)`: override is "correct", or override is blank
and the AI grade is "correct" (both compared after `strip().lower()`). -/
def is_marked_correct (e : Entry) : Bool :=
  let override := stripLower e.override
  let grade := stripLower e.aiGrade
  override = "correct" || (override = "" && grade = "correct")

/-! ## Games index and window lookup (src/modules/grading.py:90-155) -/

/-- One entry of `build_games_index()`: a playable Games row with parsed
start/end instants (`Int` stands for the parsed `datetime`). -/
structure GameRec where
  game : String
  startDt : Int
  endDt : Int
  question : String
  answer : String
  grading : String
  rowNumber : Nat
  gradingCol1based : Nat
  deriving Repr, DecidableEq

/-- The window predicate of `find_game_for_submission`:
same game key and `start_dt <= submission_dt <= end_dt` (both inclusive). -/
def windowMatches (gtype : String) (t : Int) (r : GameRec) : Bool :=
  stripLower r.game = gtype && decide (r.startDt ≤ t) && decide (t ≤ r.endDt)

/-- `find_game_for_submission(game_type, submission_dt, games_index)`
(src/modules/grading.py:144-155): `None` on a missing datetime or empty
game type, else the first index entry whose window contains the instant. -/
def find_game_for_submission (gameType : String) (submissionDt : Option Int)
    (gamesIndex : List GameRec) : Option GameRec :=
  match submissionDt with
  | none => none
  | some t =>
    if gameType = "" then none
    else gamesIndex.find? (windowMatches (stripLower gameType) t)

/-! ## Verdict parsing (src/modules/grading.py:226-238) -/

/-- Try `Correctness:\s*(Correct|Incorrect)` (ignore-case) at the start of
`cs`, returning the captured group verbatim.  The alternation tries
`Correct` first, as the regex does. -/
def matchCorrectness (cs : List Char) : Option (List Char) :=
  if ciStartsWith "correctness:".data cs then
    let rest := (cs.drop "correctness:".length).dropWhile pyIsSpace
    if ciStartsWith "correct".data rest then some (rest.take "correct".length)
    else if ciStartsWith "incorrect".data rest then some (rest.take "incorrect".length)
    else none
  else none

/-- `re.search` for the correctness pattern: leftmost position at which the
whole pattern matches. -/
def searchCorrectness (cs : List Char) : Option (List Char) :=
  match matchCorrectness cs with
  | some g => some g
  | none =>
    match cs with
    | [] => none
    | _ :: tl => searchCorrectness tl

/-- Try `Confidence:\s*([0-9]+(?:\.[0-9]+)?)\s*%?` (ignore-case) at the start
of `cs`, returning the captured number group. -/
def matchConfidence (cs : List Char) : Option (List Char) :=
  if ciStartsWith "confidence:".data cs then
    let rest := (cs.drop "confidence:".length).dropWhile pyIsSpace
    let ds := rest.takeWhile Char.isDigit
    if ds = [] then none
    else
      match rest.drop ds.length with
      | '.' :: more =>
        let fs := more.takeWhile Char.isDigit
        if fs = [] then some ds else some (ds ++ '.' :: fs)
      | _ => some ds
  else none

/-- `re.search` for the confidence pattern: leftmost full match. -/
def searchConfidence (cs : List Char) : Option (List Char) :=
  match matchConfidence cs with
  | some g => some g
  | none =>
    match cs with
    | [] => none
    | _ :: tl => searchConfidence tl

/-- Value of a digit run, most significant first. -/
def digitsToNat (ds : List Char) : Nat :=
  ds.foldl (fun a c => a * 10 + (c.toNat - 48)) 0

/-- `float(group)` for a `[0-9]+(\.[0-9]+)?` group, as an exact rational. -/
def groupToRat (g : List Char) : ℚ :=
  let ip := g.takeWhile Char.isDigit
  match g.drop ip.length with
  | '.' :: fs => (digitsToNat ip : ℚ) + (digitsToNat fs : ℚ) / ((10 : ℚ) ^ fs.length)
  | _ => (digitsToNat ip : ℚ)

/-- Python `round` to an integer: nearest integer, ties to even. -/
def roundHalfEven (q : ℚ) : ℤ :=
  let f := ⌊q⌋
  let r := q - (f : ℚ)
  if r < 1 / 2 then f
  else if r > 1 / 2 then f + 1
  else if 2 ∣ f then f else f + 1

/-- `f"{int(round(val))}%"` after the `val <= 1.0 → val *= 100.0` upscale. -/
def formatConfidence (v : ℚ) : String :=
  let v := if v ≤ 1 then v * 100 else v
  toString (roundHalfEven v) ++ "%"

/-- `_parse_grade_confidence(text)` (src/modules/grading.py:226-238):
the two fields are parsed independently; a missing correctness match yields
`Uncertain`, a missing confidence match yields `N/A`. -/
def _parse_grade_confidence (text : String) : String × String :=
  let grade :=
    match searchCorrectness text.data with
    | some g => pyCapitalize ⟨g⟩
    | none => "Uncertain"
  let confidence :=
    match searchConfidence text.data with
    | some g => formatConfidence (groupToRat g)
    | none => "N/A"
  (grade, confidence)

/-! ## Batch grading (src/modules/grading.py:374-491) -/

/-- `_header_map_loose` normalization: `re.sub(r"\s+"," ", s.strip().lower())`. -/
def normLoose (s : String) : String := collapseWs (pyLower (pyStrip s))

/-- Lookup in the loose header map; the Python dict comprehension keeps the
last index for duplicate normalized headers. -/
def hmLookup (headers : List String) (key : String) : Option Nat :=
  ((headers.enum.filter fun p => normLoose p.2 = key).getLast?).map (·.1)

/-- `idx_of(*candidates)`: first candidate present in the header map. -/
def idxOf (headers : List String) : List String → Option Nat
  | [] => none
  | c :: cs =>
    match hmLookup headers (normLoose c) with
    | some i => some i
    | none => idxOf headers cs

/-- `(row + [""] * len(headers))[:len(headers)]`. -/
def padTrunc (row : List String) (n : Nat) : List String :=
  (row ++ List.replicate n "").take n

/-- Write one cell of the sheet (`r` is the 1-based row, `c` the 0-based
column); a too-short stored row grows as the sheet would. -/
def setInRow (row : List String) (c : Nat) (v : String) : List String :=
  ((row ++ List.replicate (c + 1 - row.length) "").set c v)

def setCell (grid : List (List String)) (r c : Nat) (v : String) :
    List (List String) :=
  grid.set (r - 1) (setInRow (grid.getD (r - 1) []) c v)

/-- The header-ensure step of `grade_submissions_for_sheet` (lines 388-397):
append any of `AI Grade`, `AI Confidence`, `Override` missing from the
stripped header set, writing the headers back. -/
def ensureGradeHeaders (allRows : List (List String)) : List (List String) :=
  match allRows with
  | [] => []
  | headers :: rest =>
    let present := headers.map pyStrip
    let toAdd := ["AI Grade", "AI Confidence", "Override"].filter
      fun c => ¬ c ∈ present
    (headers ++ toAdd) :: rest

/-- Result of one grading run over a submissions sheet. -/
structure GradeRunResult where
  rows : List (List String)
  serviced : List Nat
  gamesUpdates : List (Nat × Nat × String)
  deriving Repr, DecidableEq

/-- State threaded through the per-row loop of the grading run. -/
structure GradeLoopState where
  outUpdates : List (Nat × String × String)
  serviced : List Nat
  gamesUpdates : List (Nat × Nat × String)
  deriving Repr, DecidableEq

/-- The body of the row loop (src/modules/grading.py:422-472) for the 1-based
sheet row `i`.  Skips already-graded and incomplete rows, matches the first
game window, regenerates a missing `AI:` rubric through `genFn`, and grades
through `gradeFn`. -/
def gradeRowStep (parseDt : String → Option Int)
    (genFn : String → String → String → String → String)
    (gradeFn : String → String → String × String)
    (gamesIndex : List GameRec) (headersLen gameIdx tsIdx answerIdx gradeIdx : Nat)
    (st : GradeLoopState) (iRow : Nat × List String) : GradeLoopState :=
  let i := iRow.1
  let row := padTrunc iRow.2 headersLen
  if pyStrip (row.getD gradeIdx "") ≠ "" then st
  else
    let gameType := pyStrip (row.getD gameIdx "")
    let tsRaw := pyStrip (row.getD tsIdx "")
    let userAnswer := pyStrip (row.getD answerIdx "")
    if gameType = "" ∨ tsRaw = "" ∨ userAnswer = "" then st
    else
      match parseDt tsRaw with
      | none => st
      | some subDt =>
        match gamesIndex.find? (windowMatches (pyLower gameType) subDt) with
        | none => st
        | some m =>
          let gp := m.grading
          let needGen := gp = "" ∨ ¬ "ai:".data.isPrefixOf (pyLower gp).data
          let prompt :=
            if gp = "" ∨ ¬ "ai:".data.isPrefixOf (pyLower gp).data then
              let logic := genFn m.game m.question m.answer gp
              if gp ≠ "" then pyStrip gp ++ "\nAI: " ++ logic else "AI: " ++ logic
            else gp
          let gamesUpd :=
            if needGen then
              st.gamesUpdates ++ [(m.rowNumber, m.gradingCol1based, pyStrip prompt)]
            else st.gamesUpdates
          let gc := gradeFn prompt userAnswer
          { outUpdates := st.outUpdates ++ [(i, gc.1, gc.2)]
            serviced := st.serviced ++ [i]
            gamesUpdates := gamesUpd }

/-- `block` assembly (lines 476-482): a `["",""]`-initialized band from the
minimum to the maximum updated row, overwritten at the updated rows. -/
def buildBlock (minRow maxRow : Nat) (upds : List (Nat × String × String)) :
    List (String × String) :=
  upds.foldl (fun blk u => blk.set (u.1 - minRow) (u.2.1, u.2.2))
    (List.replicate (maxRow - minRow + 1) ("", ""))

/-- Apply the single batched `ws_sub.update` (lines 483-487): the 2-wide
value matrix is anchored at `(minRow, gradeIdx)`, so each band row writes
columns `gradeIdx` and `gradeIdx + 1`. -/
def applyBlock (grid : List (List String)) (minRow gradeIdx : Nat)
    (block : List (String × String)) : List (List String) :=
  (block.enum).foldl
    (fun g p =>
      setCell (setCell g (minRow + p.1) gradeIdx p.2.1) (minRow + p.1)
        (gradeIdx + 1) p.2.2)
    grid

/-- `grade_submissions_for_sheet(sheet_name)` (src/modules/grading.py:374-491)
as a function of the fetched submissions grid and games index.  Returns the
persisted grid, the 1-based rows for which the grading service was invoked,
and the rubric write-backs to the Games sheet. -/
def grade_submissions_for_sheet (parseDt : String → Option Int)
    (genFn : String → String → String → String → String)
    (gradeFn : String → String → String × String)
    (gamesIndex : List GameRec) (allRows0 : List (List String)) :
    GradeRunResult :=
  match allRows0 with
  | [] => ⟨[], [], []⟩
  | _ :: _ =>
    let allRows := ensureGradeHeaders allRows0
    let headers := allRows.headD []
    let gameIdx := idxOf headers ["Game"]
    let tsIdx := idxOf headers ["Timestamp"]
    let answerIdx := idxOf headers ["Answer"]
    let gradeIdx := idxOf headers ["AI Grade"]
    let confIdx := idxOf headers ["AI Confidence"]
    match gameIdx, tsIdx, answerIdx, gradeIdx, confIdx with
    | some gameI, some tsI, some ansI, some gradeI, some _ =>
      if gamesIndex = [] then ⟨allRows, [], []⟩
      else
        let dataRows := (allRows.drop 2).enum.map fun p => (p.1 + 3, p.2)
        let st := dataRows.foldl
          (gradeRowStep parseDt genFn gradeFn gamesIndex headers.length
            gameI tsI ansI gradeI) ⟨[], [], []⟩
        match st.outUpdates with
        | [] => ⟨allRows, st.serviced, st.gamesUpdates⟩
        | u :: us =>
          let rowNums := (u :: us).map (·.1)
          let minRow := rowNums.foldl Nat.min u.1
          let maxRow := rowNums.foldl Nat.max u.1
          let block := buildBlock minRow maxRow (u :: us)
          ⟨applyBlock allRows minRow gradeI block, st.serviced, st.gamesUpdates⟩
    | _, _, _, _, _ => ⟨allRows, [], []⟩

/-! ## Winner selection (src/modules/winners.py) -/

/-- A parsed submission row as `populate_winners_tab` builds it
(src/modules/winners.py:148-170); all string fields are the stripped cell
values, `dt` the parsed timestamp. -/
structure Sub where
  game : String
  dt : Option Int
  firstName : String
  lastInitial : String
  email : String
  aiGrade : String
  override : String
  link : String
  deriving Repr, DecidableEq

/-- A parsed playable Games row (src/modules/winners.py:111-133). -/
structure WGame where
  game : String
  startDt : Int
  endDt : Int
  question : String
  answer : String
  deriving Repr, DecidableEq

/-- `display_name(e)` (src/modules/winners.py:219-224). -/
def displayName (e : Sub) : String :=
  if pyStrip e.lastInitial ≠ "" then
    e.firstName ++ " " ++ pyStrip e.lastInitial ++ "."
  else e.firstName

/-- `grading.is_marked_correct` applied to a parsed submission. -/
def subMarkedCorrect (e : Sub) : Bool := is_marked_correct ⟨e.override, e.aiGrade⟩

/-- The correct-entry filter for one game window
(src/modules/winners.py:208-217): same game key, parseable timestamp inside
the inclusive window, effectively correct, non-empty name and email. -/
def correctEntries (g : WGame) (subs : List Sub) : List Sub :=
  subs.filter fun s =>
    match s.dt with
    | none => false
    | some t =>
      decide (stripLower s.game = stripLower g.game) &&
      decide (g.startDt ≤ t) && decide (t ≤ g.endDt) &&
      subMarkedCorrect s && decide (s.firstName ≠ "") && decide (s.email ≠ "")

/-- `sorted(correct_entries, key=lambda e: display_name(e).lower())`
(stable, like Python's sort). -/
def sortedByName (l : List Sub) : List Sub :=
  sortLe (fun a b => strLeb (pyLower (displayName a)) (pyLower (displayName b))) l

/-- `sorted(correct_entries, key=lambda e: e["dt"])` (line 242; every correct
entry has a parsed timestamp). -/
def sortedByTime (l : List Sub) : List Sub :=
  sortLe (fun a b => decide (a.dt.getD 0 ≤ b.dt.getD 0)) l

/-- The de-dupe-by-display-name loop (lines 229-240 / 243-249): keep the
first entry for each display name. -/
def dedupEntries (seen : List String) : List Sub → List Sub
  | [] => []
  | e :: es =>
    let n := displayName e
    if n ∈ seen then dedupEntries seen es else e :: dedupEntries (n :: seen) es

/-- Alphabetized, case-insensitively de-duplicated email list
(lines 251-260): first spelling wins, keys sorted. -/
def alphaEmails (emails : List String) : List String :=
  let assoc := emails.foldl
    (fun acc em =>
      let emc := pyStrip em
      if emc = "" then acc
      else if acc.any fun p => p.1 = pyLower emc then acc
      else acc ++ [(pyLower emc, emc)])
    []
  (sortLe strLeb (assoc.map (·.1))).map
    fun k => (((assoc.find? fun p => p.1 = k).map (·.2)).getD "")

def joinComma (l : List String) : String := String.intercalate ", " l

/-- `full_text.endswith("..")`. -/
def endsDotDot (s : String) : Bool :=
  match s.data.reverse with
  | '.' :: '.' :: _ => true
  | _ => false

/-- One output row of the Winners tab. -/
structure WinnerRow where
  startTime : String
  endTime : String
  game : String
  swagName : String
  swagEmail : String
  swagLink : String
  winnersNames : List String
  winners : String
  winnerOrdered : String
  winnerEmails : String
  fullText : String
  deriving Repr, DecidableEq

/-- The keep-prior-swag-winner path (src/modules/winners.py:262-278):
the prior `(name, email)` pair is kept when both are non-empty, the pair is
still among the correct entries, and the email is not excluded; the swag
link is refetched from the matching entry. -/
def keptPrior (sorted : List Sub) (prevEmails : List String)
    (existing : String × String) : Option (String × String × String) :=
  if existing.1 ≠ "" ∧ existing.2 ≠ "" ∧
      (existing.1, existing.2) ∈
        (sorted.map fun e => (displayName e, pyStrip e.email)) ∧
      ¬ pyLower (pyStrip existing.2) ∈ prevEmails then
    some (existing.1, existing.2,
      (((sorted.find? fun e =>
          decide (displayName e = existing.1) &&
          decide (pyStrip e.email = existing.2)).map
        fun e => pyStrip e.link).getD ""))
  else none

/-- The `random.choice` pool (src/modules/winners.py:281-282): the
non-excluded entries, or all correct entries when exclusion empties it. -/
def poolFor (sorted : List Sub) (prevEmails : List String) : List Sub :=
  if sorted.filter
      (fun e => decide (¬ pyLower (pyStrip e.email) ∈ prevEmails)) = [] then
    sorted
  else
    sorted.filter fun e => decide (¬ pyLower (pyStrip e.email) ∈ prevEmails)

/-- The random-choice path (src/modules/winners.py:280-287); `pickIdx`
stands for `random.choice` over the pool. -/
def randomPick (sorted : List Sub) (prevEmails : List String) (pickIdx : Nat) :
    Option (String × String × String) :=
  match poolFor sorted prevEmails with
  | [] => none
  | p :: ps =>
    some (displayName ((p :: ps).getD (pickIdx % (p :: ps).length) p),
      pyStrip ((p :: ps).getD (pickIdx % (p :: ps).length) p).email,
      pyStrip ((p :: ps).getD (pickIdx % (p :: ps).length) p).link)

/-- The overall swag selection: keep the prior winner when still valid,
else pick anew. -/
def chosenSwag (sorted : List Sub) (prevEmails : List String)
    (existing : String × String) (pickIdx : Nat) :
    Option (String × String × String) :=
  match keptPrior sorted prevEmails existing with
  | some k => some k
  | none => randomPick sorted prevEmails pickIdx

/-- The per-window computation of `populate_winners_tab`
(src/modules/winners.py:207-318).  `existing` is the `(Swag Winner, Swag
Winner Email)` pair looked up in the prior Winners rows under the
`(start, end, game)` key (`("", "")` when absent), `prevEmails` the
recent-past-winners exclusion set, `fmtDt` the `_fmt_dt` timestamp
formatter, and `pickIdx` resolves `random.choice` (modulo pool size). -/
def winnerRowFor (fmtDt : Int → String) (g : WGame) (subs : List Sub)
    (prevEmails : List String) (existing : String × String) (pickIdx : Nat) :
    WinnerRow :=
  let correct := correctEntries g subs
  let sorted := sortedByName correct
  let deduped := dedupEntries [] sorted
  let names := deduped.map displayName
  let emailsSorted := deduped.map fun e => pyStrip e.email
  let ordered := (dedupEntries [] (sortedByTime correct)).map displayName
  let emailAlpha := alphaEmails emailsSorted
  let chosen := chosenSwag sorted prevEmails existing pickIdx
  let swagName := (chosen.map (·.1)).getD ""
  let swagEmail := (chosen.map (·.2.1)).getD ""
  let swagLink := (chosen.map (·.2.2)).getD ""
  let others := names.filter fun n => n ≠ swagName
  let fullText0 :=
    if swagName ≠ "" then
      "Congrats to " ++ swagName ++ ", who will receive Spotlight PA swag." ++
        (if others ≠ [] then
          " Others who answered correctly: " ++ joinComma others ++ "."
        else "")
    else ""
  let fullText := if endsDotDot fullText0 then ⟨fullText0.data.dropLast⟩
    else fullText0
  { startTime := fmtDt g.startDt, endTime := fmtDt g.endDt, game := g.game
    swagName, swagEmail, swagLink, winnersNames := names
    winners := joinComma names, winnerOrdered := joinComma ordered
    winnerEmails := joinComma emailAlpha, fullText }

/-- Per-row accumulation of `_load_previous_winner_emails`
(src/modules/winners.py:85-89): a long-enough row contributes its stripped,
lowercased Email cell unless blank, a sentinel, or already present. -/
def prevEmailStep (idx : Nat) (acc : List String) (r : List String) :
    List String :=
  if idx < r.length then
    if stripLower (r.getD idx "") ≠ "" ∧ stripLower (r.getD idx "") ≠ "na" ∧
        stripLower (r.getD idx "") ≠ "declined" ∧
        ¬ stripLower (r.getD idx "") ∈ acc then
      acc ++ [stripLower (r.getD idx "")]
    else acc
  else acc

/-- `_load_previous_winner_emails(sheet)` (src/modules/winners.py:69-90).
`none` stands for a missing "Previous Winners" worksheet (the `except`
path); the result is the set (as a duplicate-free list) of stripped,
lowercased Email-column values, excluding blanks and the sentinels. -/
def _load_previous_winner_emails : Option (List (List String)) → List String
  | none => []
  | some rows =>
    match rows with
    | [] => []
    | headers :: rest =>
      if "Email" ∈ headers then
        rest.foldl (prevEmailStep (headers.indexOf "Email")) []
      else []

/-! ## Ingestion and the dedup key (src/modules/mail.py) -/

/-- Python `str.splitlines()` (the pipeline's strings use `\n` newlines):
no entry is produced for a trailing newline, and `""` yields `[]`. -/
def splitlinesChars : List Char → List (List Char)
  | [] => []
  | c :: cs =>
    if c = '\n' then [] :: splitlinesChars cs
    else
      match splitlinesChars cs with
      | [] => [[c]]
      | line :: rest => (c :: line) :: rest

/-- `re.match(r"(?i)^\s*subject\s*:", line)`. -/
def isSubjectLine (l : List Char) : Bool :=
  let r := l.dropWhile pyIsSpace
  if ciStartsWith "subject".data r then
    match (r.drop "subject".length).dropWhile pyIsSpace with
    | ':' :: _ => true
    | _ => false
  else false

/-- `_normalize_answer_for_key(s)` (src/modules/mail.py:157-167): replace
non-breaking spaces, drop a leading `Subject:` line, collapse whitespace,
strip, lowercase. -/
def _normalize_answer_for_key (s : String) : String :=
  if s = "" then ""
  else
    let s1 := s.data.map fun c => if c = '\u00A0' then ' ' else c
    let lines := splitlinesChars s1
    let lines2 :=
      match lines with
      | l0 :: rest => if isSubjectLine l0 then rest else lines
      | [] => lines
    pyLower (pyStrip (collapseWs ⟨List.intercalate ['\n'] lines2⟩))

/-- Decimal printer, fuel-indexed so that it computes by structural
recursion (any fuel above the digit count gives the digits of `n`, most
significant first). -/
def natToCharsAux : Nat → Nat → List Char
  | 0, _ => []
  | fuel + 1, n =>
    if n < 10 then [Char.ofNat (48 + n)]
    else natToCharsAux fuel (n / 10) ++ [Char.ofNat (48 + n % 10)]

/-- Decimal digits of `n`, most significant first. -/
def natToChars (n : Nat) : List Char := natToCharsAux (n + 1) n

/-- `%m`/`%d`/`%I`/`%M`-style zero-padding to two digits. -/
def pad2 (n : Nat) : List Char :=
  if n < 10 then '0' :: natToChars n else natToChars n

/-- A wall-clock timestamp as the sheet stores it (strftime
`"%m/%d/%Y %I:%M %p"` fields, America/New_York local time). -/
structure Ts where
  month : Nat
  day : Nat
  year : Nat
  hour : Nat
  minute : Nat
  pm : Bool
  deriving Repr, DecidableEq

/-- `dt.strftime("%m/%d/%Y %I:%M %p")` (`_TS_FMT`, src/modules/mail.py:90). -/
def fmtTs (t : Ts) : String :=
  ⟨pad2 t.month ++ '/' :: pad2 t.day ++ '/' :: natToChars t.year ++
    ' ' :: pad2 t.hour ++ ':' :: pad2 t.minute ++
    ' ' :: (if t.pm then ['P', 'M'] else ['A', 'M'])⟩

/-- Read a maximal non-empty digit run. -/
def readNat (l : List Char) : Option (Nat × List Char) :=
  let ds := l.takeWhile Char.isDigit
  if ds = [] then none else some (digitsToNat ds, l.drop ds.length)

/-- `dateutil.parser.parse`, modelled on the canonical `_TS_FMT` layout the
sheet stores (the only timestamp format this pipeline writes). -/
def parseTsChars (l : List Char) : Option Ts :=
  match readNat l with
  | some (mo, '/' :: r1) =>
    match readNat r1 with
    | some (d, '/' :: r2) =>
      match readNat r2 with
      | some (y, ' ' :: r3) =>
        match readNat r3 with
        | some (h, ':' :: r4) =>
          match readNat r4 with
          | some (mi, ' ' :: r5) =>
            match r5 with
            | ['A', 'M'] => some ⟨mo, d, y, h, mi, false⟩
            | ['P', 'M'] => some ⟨mo, d, y, h, mi, true⟩
            | _ => none
          | _ => none
        | _ => none
      | _ => none
    | _ => none
  | _ => none

def parseTs (s : String) : Option Ts := parseTsChars s.data

/-- `_normalize_ts_str(s)` (src/modules/mail.py:145-154): canonical reformat
when parseable, else the stripped input. -/
def _normalize_ts_str (s : String) : String :=
  if s = "" then ""
  else
    match parseTs s with
    | some t => fmtTs t
    | none => pyStrip s

/-- The ingestion dedup key: `(game, email, timestamp, normalized answer)`. -/
abbrev SubKey := String × String × String × String

/-- `_load_existing_keys` per-row derivation (src/modules/mail.py:292-309):
fixed columns Game=0, Timestamp=1, Email=4, Answer=5; a key is kept only
when all four components are non-empty. -/
def rowKey? (r : List String) : Option SubKey :=
  if stripLower (r.getD 0 "") ≠ "" ∧ _normalize_ts_str (pyStrip (r.getD 1 "")) ≠ "" ∧
      stripLower (r.getD 4 "") ≠ "" ∧ _normalize_answer_for_key (pyStrip (r.getD 5 "")) ≠ "" then
    some (stripLower (r.getD 0 ""), stripLower (r.getD 4 ""),
      _normalize_ts_str (pyStrip (r.getD 1 "")), _normalize_answer_for_key (pyStrip (r.getD 5 "")))
  else none

/-- The key set of `_load_existing_keys` (data rows start at sheet row 3). -/
def loadKeys (rows : List (List String)) : List SubKey :=
  (rows.drop 2).filterMap rowKey?

/-- Key/row pairs of the data rows, `i` being the 1-based sheet row of the
first listed row. -/
def keyRowsAux (i : Nat) : List (List String) → List (SubKey × Nat)
  | [] => []
  | r :: rs =>
    match rowKey? r with
    | some k => (k, i) :: keyRowsAux (i + 1) rs
    | none => keyRowsAux (i + 1) rs

/-- The `key_to_row` map, key to 1-based sheet row (data starts at row 3);
like the Python dict, a later row overwrites an earlier row with the same
key, which `lookupLast` below reproduces. -/
def keyRows (rows : List (List String)) : List (SubKey × Nat) :=
  keyRowsAux 3 (rows.drop 2)

def lookupLast (m : List (SubKey × Nat)) (k : SubKey) : Option Nat :=
  ((m.filter fun p => p.1 = k).getLast?).map (·.2)

/-- One fetched message as it reaches the dedup/append stage of
`fetch_emails_for_label` (src/modules/mail.py:464-501): the digest filter,
sender parsing and subject/body assembly have already run, so `body` is the
final `body_text` and `tsStr` the formatted timestamp. -/
structure Msg where
  id : String
  tsStr : String
  firstName : String
  lastInitial : String
  email : String
  body : String
  deriving Repr, DecidableEq

def msgLink (id : String) : String :=
  "https://mail.google.com/mail/u/0/#all/" ++ id

/-- The ensured Submissions header layout
(`_ensure_submission_headers`, src/modules/mail.py:263-289); the Link
column is index 9. -/
def subHeaders : List String :=
  ["Game", "Timestamp", "First Name", "Last Name Initial", "Email", "Answer",
   "AI Grade", "AI Confidence", "Override", "Link"]

/-- The appended row for a new submission (src/modules/mail.py:486-499). -/
def newRowFor (game : String) (m : Msg) : List String :=
  [game, m.tsStr, m.firstName, m.lastInitial, m.email, m.body, "", "", "",
   msgLink m.id]

/-- The in-loop dedup key of a message (src/modules/mail.py:472). -/
def msgKey (game : String) (m : Msg) : SubKey :=
  (stripLower game, stripLower m.email, m.tsStr, _normalize_answer_for_key m.body)

/-- State of the fetch loop: rows queued for `append_rows`, the growing
`existing_keys` set, and the queued Link backfills. -/
structure IngestState where
  newRows : List (List String)
  keys : List SubKey
  linkUpds : List (Nat × String)
  deriving Repr, DecidableEq

/-- Per-message body of the fetch loop (src/modules/mail.py:464-501):
skip an empty normalized answer; on a seen key, queue a Link backfill when
the stored row's Link cell is empty; otherwise queue the new row and record
its key. -/
def ingestStep (game : String) (rows0 : List (List String))
    (kmap : List (SubKey × Nat)) (st : IngestState) (m : Msg) : IngestState :=
  if _normalize_answer_for_key m.body = "" then st
  else if msgKey game m ∈ st.keys then
    match lookupLast kmap (msgKey game m) with
    | some rIdx =>
      if (rows0.getD (rIdx - 1) []).getD 9 "" = "" then
        { st with linkUpds := st.linkUpds ++ [(rIdx, msgLink m.id)] }
      else st
    | none => st
  else
    { newRows := st.newRows ++ [newRowFor game m]
      keys := st.keys ++ [msgKey game m]
      linkUpds := st.linkUpds }

/-- Apply the queued Link-cell batch update (column index 9). -/
def applyLinks (rows : List (List String)) (upds : List (Nat × String)) :
    List (List String) :=
  upds.foldl (fun g u => setCell g u.1 9 u.2) rows

/-- One run of `fetch_emails_for_label` over a mail source, as a function of
the current Submissions grid: load existing keys, process every message,
append the new rows, then apply the Link backfills. -/
def ingestRun (game : String) (rows0 : List (List String)) (msgs : List Msg) :
    List (List String) :=
  let st := msgs.foldl (ingestStep game rows0 (keyRows rows0))
    ⟨[], loadKeys rows0, []⟩
  applyLinks (rows0 ++ st.newRows) st.linkUpds

/-! ## The spreadsheet-call throttle (src/helpers/sheet_ratelimit.py:18-25)

`install_gspread_backoff()` (called at interpreter start in `src/main.py`)
replaces the gspread HTTP client so that every spreadsheet request first
runs `_pre_request_throttle()`.  With `time.sleep` idealized as exact, a
request arriving at wall-clock `now` with gate state `last` is issued at
`now + wait` when `wait = minInterval - (now - last) > 0`, else at `now`;
the gate state becomes the issue time. -/

def throttleStep (minInterval last now : ℚ) : ℚ :=
  if minInterval - (now - last) > 0 then now + (minInterval - (now - last))
  else now

/-- Issue times of a sequence of requests arriving at the given times,
serialized through the gate's lock. -/
def throttleRun (minInterval last : ℚ) : List ℚ → List ℚ
  | [] => []
  | a :: as =>
    let t := throttleStep minInterval last a
    t :: throttleRun minInterval t as

/-! ## General helper lemmas -/

lemma string_eq_empty_iff (s : String) : s = "" ↔ s.data = [] := by
  constructor
  · intro h; rw [h]
  · intro h; exact String.ext h

lemma append_ne_empty_left {a b : String} (h : a ≠ "") : a ++ b ≠ "" := by
  intro hab
  rw [string_eq_empty_iff, String.data_append, List.append_eq_nil] at hab
  exact h (string_eq_empty_iff a |>.mpr hab.1)

/-- A list whose first and last characters are not whitespace strips to
itself. -/
lemma stripChars_eq_self {l : List Char}
    (h1 : ∀ c, l.head? = some c → pyIsSpace c = false)
    (h2 : ∀ c, l.getLast? = some c → pyIsSpace c = false) :
    stripChars l = l := by
  unfold stripChars
  have hd : l.dropWhile pyIsSpace = l := by
    cases l with
    | nil => rfl
    | cons a as => rw [List.dropWhile_cons, if_neg (by simp [h1 a rfl])]
  rw [hd]
  have hr : l.reverse.dropWhile pyIsSpace = l.reverse := by
    cases hrev : l.reverse with
    | nil => rfl
    | cons a as =>
      rw [List.dropWhile_cons, if_neg]
      have ha : l.getLast? = some a := by
        rw [← List.head?_reverse, hrev]; rfl
      simp [h2 a ha]
  rw [hr, List.reverse_reverse]

lemma pyIsSpace_eq_false_of_isDigit {c : Char} (h : c.isDigit = true) :
    pyIsSpace c = false := by
  cases hsp : pyIsSpace c with
  | false => rfl
  | true =>
    exfalso
    simp only [pyIsSpace, Bool.or_eq_true, decide_eq_true_eq] at hsp
    rcases hsp with ((((((rfl | rfl) | rfl) | rfl) | rfl) | rfl) | rfl) <;>
      exact absurd h (by decide)

/-! ## Claim C3 -/

/-- C3: effective correctness gives `human_override` precedence over
`ai_grade`.  A submission with override `Correct` and AI grade `Incorrect`
is effective-correct, one with override `Incorrect` and AI grade `Correct`
is effective-incorrect, and in general `is_marked_correct` holds exactly
when the override is `correct`, or the override is unset and the AI grade
is `correct` (each compared after strip-and-lowercase). -/
theorem effective_correctness_override_precedence :
    is_marked_correct ⟨"Correct", "Incorrect"⟩ = true ∧
    is_marked_correct ⟨"Incorrect", "Correct"⟩ = false ∧
    ∀ e : Entry, is_marked_correct e = true ↔
      (stripLower e.override = "correct" ∨
        (stripLower e.override = "" ∧ stripLower e.aiGrade = "correct")) := by
  refine ⟨by decide, by decide, fun e => ?_⟩
  simp [is_marked_correct, Bool.or_eq_true, Bool.and_eq_true,
    decide_eq_true_eq]

/-! ## Claim C4 -/

/-- C4 counterexample: a response whose Confidence field fails to parse but
whose Correctness field parses is graded `Correct` with confidence `N/A`,
not `Uncertain` with confidence `N/A`, so a malformed Confidence field does
not downgrade the grade to `Uncertain`. -/
theorem verdict_parse_not_jointly_downgraded :
    searchConfidence "Correctness: Correct".data = none ∧
    _parse_grade_confidence "Correctness: Correct" = ("Correct", "N/A") ∧
    ("Correct", "N/A") ≠ (("Uncertain", "N/A") : String × String) := by
  refine ⟨by decide, by decide, by decide⟩

/-- C4 amended: the two fields of the grading-service response are parsed
independently and tolerantly: an unparseable Correctness field yields grade
`Uncertain`, an unparseable Confidence field yields confidence `N/A`, and
when both fail the verdict is `("Uncertain", "N/A")`; parsing never raises. -/
theorem verdict_parse_downgrades_independently (text : String) :
    (searchCorrectness text.data = none →
      (_parse_grade_confidence text).1 = "Uncertain") ∧
    (searchConfidence text.data = none →
      (_parse_grade_confidence text).2 = "N/A") ∧
    (searchCorrectness text.data = none ∧ searchConfidence text.data = none →
      _parse_grade_confidence text = ("Uncertain", "N/A")) := by
  unfold _parse_grade_confidence
  refine ⟨fun h => ?_, fun h => ?_, fun h => ?_⟩
  · rw [h]
  · rw [h]
  · rw [h.1, h.2]

/-- C4 amended, witness: a free-text response with neither field parses to
the fully downgraded verdict. -/
theorem verdict_parse_downgrades_independently_w :
    _parse_grade_confidence "the answer looks right to me" =
      ("Uncertain", "N/A") :=
  (verdict_parse_downgrades_independently "the answer looks right to me").2.2
    ⟨by decide, by decide⟩

/-! ## Claim C9 -/

lemma throttleStep_ge (minI last a : ℚ) :
    last + minI ≤ throttleStep minI last a := by
  unfold throttleStep
  split
  · linarith
  · linarith [not_lt.1 (by simpa using ‹¬ minI - (a - last) > 0›)]

/-- C9 amended: the gate actually installed on every spreadsheet call
(`_pre_request_throttle`, patched into the gspread HTTP client by
`install_gspread_backoff` at startup) enforces the minimum inter-call
interval: successive issue times, starting from the gate state, are at
least `minInterval` apart. -/
theorem throttle_enforces_min_interval (minI last : ℚ) (arrivals : List ℚ) :
    List.Chain' (fun t u => t + minI ≤ u)
      (last :: throttleRun minI last arrivals) := by
  induction arrivals generalizing last with
  | nil => simp [throttleRun]
  | cons a as ih =>
    simp only [throttleRun]
    exact List.Chain'.cons (throttleStep_ge minI last a)
      (ih (throttleStep minI last a))

/-- C9 counterexample: the installed gate enforces no rolling per-minute
cap.  With the default 6-second minimum interval, twelve back-to-back
requests are issued at 0, 6, …, 66 seconds: the minute window `[0, 60)`
holds 10 issued calls, exceeding the strictest per-minute cap configured in
`improved_rate_limiting.global_rate_limit` (8 for batch updates). -/
theorem throttle_admits_cap_violation :
    ((throttleRun 6 (-6) (List.replicate 12 0)).countP
      fun t => decide (0 ≤ t ∧ t < 60)) = 10 ∧ ¬ (10 ≤ 8) := by
  constructor
  · have htrace : throttleRun 6 (-6) (List.replicate 12 0) =
        [0, 6, 12, 18, 24, 30, 36, 42, 48, 54, 60, 66] := by
      norm_num [throttleRun, throttleStep, List.replicate_succ]
    rw [htrace]
    norm_num [List.countP_cons, List.countP_nil]
  · decide

/-! ## Claim C10 -/

lemma mem_prevEmailStep_foldl (idx : Nat) (rest : List (List String))
    (acc : List String) (e : String) :
    e ∈ rest.foldl (prevEmailStep idx) acc ↔
      e ∈ acc ∨ ∃ r ∈ rest, idx < r.length ∧
        stripLower (r.getD idx "") = e ∧
        e ≠ "" ∧ e ≠ "na" ∧ e ≠ "declined" := by
  induction rest generalizing acc with
  | nil => simp
  | cons r rs ih =>
    rw [List.foldl_cons, ih]
    have hstep : e ∈ prevEmailStep idx acc r ↔
        e ∈ acc ∨ (idx < r.length ∧ stripLower (r.getD idx "") = e ∧
          e ≠ "" ∧ e ≠ "na" ∧ e ≠ "declined") := by
      unfold prevEmailStep
      split
      · rename_i hlen
        split
        · rename_i hcond
          simp only [List.mem_append, List.mem_singleton]
          constructor
          · rintro (h | rfl)
            · exact Or.inl h
            · exact Or.inr ⟨hlen, rfl, hcond.1, hcond.2.1, hcond.2.2.1⟩
          · rintro (h | ⟨_, rfl, _⟩)
            · exact Or.inl h
            · exact Or.inr rfl
        · rename_i hcond
          constructor
          · exact Or.inl
          · rintro (h | ⟨_, rfl, h1, h2, h3⟩)
            · exact h
            · by_cases hacc : stripLower (r.getD idx "") ∈ acc
              · exact hacc
              · exact absurd ⟨h1, h2, h3, hacc⟩ hcond
      · rename_i hlen
        constructor
        · exact Or.inl
        · rintro (h | ⟨hlen', _⟩)
          · exact h
          · exact absurd hlen' hlen
    rw [hstep]
    simp only [List.mem_cons]
    constructor
    · rintro (((h | h) | ⟨r', hr', h'⟩))
      · exact Or.inl h
      · exact Or.inr ⟨r, Or.inl rfl, h⟩
      · exact Or.inr ⟨r', Or.inr hr', h'⟩
    · rintro (h | ⟨r', (rfl | hr'), h'⟩)
      · exact Or.inl (Or.inl h)
      · exact Or.inl (Or.inr h')
      · exact Or.inr ⟨r', hr', h'⟩

/-- C10: the recent-past-winners exclusion set is loaded leniently.  A
missing worksheet, an empty worksheet, or a header row without an exact
`Email` header yields the empty set; otherwise the set holds exactly the
stripped, lowercased values of the Email column (first `Email` header,
rows below the header, cells present in a long-enough row), excluding the
empty string and the sentinels `na` and `declined`. -/
theorem load_previous_winner_emails_lenient :
    _load_previous_winner_emails none = [] ∧
    _load_previous_winner_emails (some []) = [] ∧
    (∀ hdr rest, ¬ "Email" ∈ hdr →
      _load_previous_winner_emails (some (hdr :: rest)) = []) ∧
    (∀ hdr rest e, "Email" ∈ hdr →
      (e ∈ _load_previous_winner_emails (some (hdr :: rest)) ↔
        ∃ r ∈ rest, hdr.indexOf "Email" < r.length ∧
          stripLower (r.getD (hdr.indexOf "Email") "") = e ∧
          e ≠ "" ∧ e ≠ "na" ∧ e ≠ "declined")) := by
  refine ⟨rfl, rfl, fun hdr rest h => ?_, fun hdr rest e h => ?_⟩
  · show (if "Email" ∈ hdr then
        List.foldl (prevEmailStep (hdr.indexOf "Email")) [] rest else []) = []
    rw [if_neg h]
  · show (e ∈ if "Email" ∈ hdr then
        List.foldl (prevEmailStep (hdr.indexOf "Email")) [] rest else []) ↔ _
    rw [if_pos h, mem_prevEmailStep_foldl]
    simp

/-- C10 witness: on a sheet whose header has an `Email` column, a mixed-case
padded address is loaded lowercased and trimmed, while the `declined`
sentinel row contributes nothing. -/
theorem load_previous_winner_emails_lenient_w :
    "b@x.com" ∈ _load_previous_winner_emails
      (some [["Email"], [" B@X.Com "], ["declined"]]) ∧
    ¬ "declined" ∈ _load_previous_winner_emails
      (some [["Email"], [" B@X.Com "], ["declined"]]) := by
  constructor
  · exact (load_previous_winner_emails_lenient.2.2.2 ["Email"]
      [[" B@X.Com "], ["declined"]] "b@x.com" (by decide)).2
      ⟨[" B@X.Com "], by decide, by decide, by decide, by decide, by decide,
        by decide⟩
  · intro hmem
    have := (load_previous_winner_emails_lenient.2.2.2 ["Email"]
      [[" B@X.Com "], ["declined"]] "declined" (by decide)).1 hmem
    rcases this with ⟨r, hr, _, _, _, _, hsent⟩
    exact hsent rfl

/-! ## Claim C2 -/

/-- On an index whose windows of equal game key appear in `start_at` order,
`find?` returns a matching window with the least start among all matching
windows. -/
lemma findWindowAux (gtype : String) (t : Int) (l : List GameRec)
    (hsorted : l.Pairwise fun a b =>
      stripLower a.game = stripLower b.game → a.startDt ≤ b.startDt)
    (w : GameRec) (hw : w ∈ l) (hpw : windowMatches gtype t w = true) :
    ∃ w', l.find? (windowMatches gtype t) = some w' ∧ w' ∈ l ∧
      windowMatches gtype t w' = true ∧
      ∀ u ∈ l, windowMatches gtype t u = true → w'.startDt ≤ u.startDt := by
  induction l with
  | nil => cases hw
  | cons r rs ih =>
    rcases List.pairwise_cons.1 hsorted with ⟨hr, hrs⟩
    by_cases hpred : windowMatches gtype t r = true
    · refine ⟨r, by rw [List.find?_cons_of_pos _ hpred], List.mem_cons_self r rs,
        hpred, fun u hu hmu => ?_⟩
      rcases List.mem_cons.1 hu with rfl | hu'
      · exact le_refl _
      · have hpr := hpred
        simp only [windowMatches, Bool.and_eq_true, decide_eq_true_eq] at hpr
        have hmu' := hmu
        simp only [windowMatches, Bool.and_eq_true, decide_eq_true_eq] at hmu'
        exact hr u hu' (by rw [hpr.1.1, hmu'.1.1])
    · have hw' : w ∈ rs := by
        rcases List.mem_cons.1 hw with rfl | h
        · exact absurd hpw hpred
        · exact h
      rcases ih hrs hw' with ⟨w', hfind, hmem, hmatch, hmin⟩
      refine ⟨w', ?_, List.mem_cons_of_mem r hmem, hmatch, fun u hu hmu => ?_⟩
      · rw [List.find?_cons_of_neg _ (by simpa using hpred), hfind]
      · rcases List.mem_cons.1 hu with rfl | hu'
        · exact absurd hmu hpred
        · exact hmin u hu' hmu

/-- C2: window matching is inclusive and first-match.  On an index sorted so
that windows of the same game key appear in `start_at` order (the order
`build_games_index` produces), any instant `t` covered by some window of
the requested game type — including `t` exactly at `start_at` or exactly at
`end_at` — makes `find_game_for_submission` return a window that contains
`t` inclusively and whose `start_at` is least among all windows of that
game type containing `t`; in an overlap the earlier-starting window wins. -/
theorem window_lookup_inclusive_first_match (gamesIndex : List GameRec)
    (gameType : String) (t : Int) (hgt : gameType ≠ "")
    (hsorted : gamesIndex.Pairwise fun a b =>
      stripLower a.game = stripLower b.game → a.startDt ≤ b.startDt)
    (w : GameRec) (hw : w ∈ gamesIndex)
    (hkey : stripLower w.game = stripLower gameType)
    (h1 : w.startDt ≤ t) (h2 : t ≤ w.endDt) :
    ∃ w', find_game_for_submission gameType (some t) gamesIndex = some w' ∧
      w' ∈ gamesIndex ∧ stripLower w'.game = stripLower gameType ∧
      w'.startDt ≤ t ∧ t ≤ w'.endDt ∧
      ∀ u ∈ gamesIndex, stripLower u.game = stripLower gameType →
        u.startDt ≤ t → t ≤ u.endDt → w'.startDt ≤ u.startDt := by
  have hpw : windowMatches (stripLower gameType) t w = true := by
    simp [windowMatches, hkey, h1, h2]
  rcases findWindowAux (stripLower gameType) t gamesIndex hsorted w hw hpw with
    ⟨w', hfind, hmem, hmatch, hmin⟩
  simp only [windowMatches, Bool.and_eq_true, decide_eq_true_eq] at hmatch
  refine ⟨w', ?_, hmem, hmatch.1.1, hmatch.1.2, hmatch.2, fun u hu hku hsu heu => ?_⟩
  · show (if gameType = "" then none
        else gamesIndex.find? (windowMatches (stripLower gameType) t)) = some w'
    rw [if_neg hgt, hfind]
  · exact hmin u hu (by simp [windowMatches, hku, hsu, heu])

/-- C2 witness: two overlapping `Riddler` windows in sorted order; an
instant at the second window's `start_at` (also strictly inside the first)
matches the earlier-starting window, inclusively. -/
theorem window_lookup_inclusive_first_match_w :
    ∃ w', find_game_for_submission "Riddler" (some 5)
        [⟨"Riddler", 0, 10, "q1", "a1", "", 3, 6⟩,
         ⟨"Riddler", 5, 20, "q2", "a2", "", 4, 6⟩] = some w' ∧
      w' ∈ [⟨"Riddler", 0, 10, "q1", "a1", "", 3, 6⟩,
         ⟨"Riddler", 5, 20, "q2", "a2", "", 4, 6⟩] ∧
      stripLower w'.game = stripLower "Riddler" ∧
      w'.startDt ≤ 5 ∧ 5 ≤ w'.endDt ∧
      ∀ u ∈ [⟨"Riddler", 0, 10, "q1", "a1", "", 3, 6⟩,
         (⟨"Riddler", 5, 20, "q2", "a2", "", 4, 6⟩ : GameRec)],
        stripLower u.game = stripLower "Riddler" →
        u.startDt ≤ 5 → 5 ≤ u.endDt → w'.startDt ≤ u.startDt :=
  window_lookup_inclusive_first_match _ "Riddler" 5 (by decide)
    (by
      refine List.Pairwise.cons (fun b hb => ?_)
        (List.Pairwise.cons (fun b hb => (List.not_mem_nil b hb).elim)
          List.Pairwise.nil)
      rcases List.mem_singleton.1 hb with rfl
      intro _
      decide)
    ⟨"Riddler", 0, 10, "q1", "a1", "", 3, 6⟩ (by simp) (by decide)
    (by decide) (by decide)

/-! ## Winner-selection helper lemmas (claims C5, C6, C8) -/

lemma winnerRowFor_swagName (fmtDt : Int → String) (g : WGame)
    (subs : List Sub) (prevEmails : List String) (existing : String × String)
    (pickIdx : Nat) :
    (winnerRowFor fmtDt g subs prevEmails existing pickIdx).swagName =
      ((chosenSwag (sortedByName (correctEntries g subs)) prevEmails existing
        pickIdx).map (·.1)).getD "" := rfl

lemma winnerRowFor_swagEmail (fmtDt : Int → String) (g : WGame)
    (subs : List Sub) (prevEmails : List String) (existing : String × String)
    (pickIdx : Nat) :
    (winnerRowFor fmtDt g subs prevEmails existing pickIdx).swagEmail =
      ((chosenSwag (sortedByName (correctEntries g subs)) prevEmails existing
        pickIdx).map (·.2.1)).getD "" := rfl

lemma winnerRowFor_winnersNames (fmtDt : Int → String) (g : WGame)
    (subs : List Sub) (prevEmails : List String) (existing : String × String)
    (pickIdx : Nat) :
    (winnerRowFor fmtDt g subs prevEmails existing pickIdx).winnersNames =
      (dedupEntries [] (sortedByName (correctEntries g subs))).map
        displayName := rfl

/-- Membership of a display name in the de-duplicated name list. -/
lemma mem_map_displayName_dedupEntries (seen : List String) (l : List Sub)
    (n : String) :
    n ∈ (dedupEntries seen l).map displayName ↔
      ¬ n ∈ seen ∧ n ∈ l.map displayName := by
  induction l generalizing seen with
  | nil => simp [dedupEntries]
  | cons e es ih =>
    unfold dedupEntries
    by_cases h : displayName e ∈ seen
    · rw [if_pos h, ih]
      simp only [List.map_cons, List.mem_cons]
      constructor
      · rintro ⟨hn, hm⟩
        exact ⟨hn, Or.inr hm⟩
      · rintro ⟨hn, (rfl | hm)⟩
        · exact (hn h).elim
        · exact ⟨hn, hm⟩
    · rw [if_neg h]
      simp only [List.map_cons, List.mem_cons, ih]
      constructor
      · rintro (rfl | ⟨hn, hm⟩)
        · exact ⟨h, Or.inl rfl⟩
        · exact ⟨fun hs => hn (Or.inr hs), Or.inr hm⟩
      · rintro ⟨hn, (rfl | hm)⟩
        · exact Or.inl rfl
        · by_cases hne : n = displayName e
          · exact Or.inl hne
          · exact Or.inr ⟨fun hc => hc.elim hne hn, hm⟩

/-- An entry passing the correct-entry filter lies in the submission list
and has a non-empty first name and email. -/
lemma correctEntries_props {g : WGame} {subs : List Sub} {e : Sub}
    (h : e ∈ correctEntries g subs) :
    e ∈ subs ∧ e.firstName ≠ "" ∧ e.email ≠ "" := by
  unfold correctEntries at h
  obtain ⟨hmem, hp⟩ := List.mem_filter.1 h
  cases hdt : e.dt with
  | none => rw [hdt] at hp; cases hp
  | some t =>
    rw [hdt] at hp
    simp only [Bool.and_eq_true, decide_eq_true_eq] at hp
    exact ⟨hmem, hp.1.2, hp.2⟩

lemma displayName_ne_empty {e : Sub} (h : e.firstName ≠ "") :
    displayName e ≠ "" := by
  unfold displayName
  split
  · exact append_ne_empty_left (append_ne_empty_left (append_ne_empty_left h))
  · exact h

lemma cons_getD_mod_mem {α : Type} (p : α) (ps : List α) (i : Nat) :
    (p :: ps).getD (i % (p :: ps).length) p ∈ p :: ps := by
  have hlt : i % (p :: ps).length < (p :: ps).length :=
    Nat.mod_lt _ (by simp)
  rw [List.getD_eq_getElem?_getD, List.getElem?_eq_getElem hlt,
    Option.getD_some]
  exact List.getElem_mem hlt

/-- Inversion of the keep-prior path: a kept swag winner reproduces the
prior name/email, which satisfied the guard. -/
lemma keptPrior_eq_some {s : List Sub} {p : List String}
    {ex : String × String} {k : String × String × String}
    (h : keptPrior s p ex = some k) :
    k.1 = ex.1 ∧ k.2.1 = ex.2 ∧ ex.1 ≠ "" ∧ ex.2 ≠ "" ∧
      (ex.1, ex.2) ∈ (s.map fun e => (displayName e, pyStrip e.email)) ∧
      ¬ pyLower (pyStrip ex.2) ∈ p := by
  unfold keptPrior at h
  split at h
  · rename_i hcond
    cases h
    exact ⟨rfl, rfl, hcond.1, hcond.2.1, hcond.2.2.1, hcond.2.2.2⟩
  · cases h

lemma mem_insertLe {α : Type} (le : α → α → Bool) (a x : α) (l : List α) :
    x ∈ insertLe le a l ↔ x = a ∨ x ∈ l := by
  induction l with
  | nil => simp [insertLe]
  | cons b bs ih =>
    unfold insertLe
    split
    · simp
    · simp only [List.mem_cons, ih]
      tauto

lemma mem_sortLe {α : Type} (le : α → α → Bool) (x : α) (l : List α) :
    x ∈ sortLe le l ↔ x ∈ l := by
  induction l with
  | nil => simp [sortLe]
  | cons b bs ih =>
    unfold sortLe
    rw [mem_insertLe, ih, List.mem_cons]

lemma sortLe_eq_nil_iff {α : Type} (le : α → α → Bool) (l : List α) :
    sortLe le l = [] ↔ l = [] := by
  cases l with
  | nil => simp [sortLe]
  | cons b bs =>
    simp only [sortLe]
    constructor
    · intro h
      have : b ∈ insertLe le b (sortLe le bs) := (mem_insertLe le b b _).2 (Or.inl rfl)
      rw [h] at this
      cases this
    · intro h
      cases h

lemma sortedByName_eq_nil_iff (l : List Sub) :
    sortedByName l = [] ↔ l = [] := by
  unfold sortedByName
  rw [sortLe_eq_nil_iff]

/-- The random-choice path always picks a member of the sorted correct
entries, from the non-excluded pool when one exists, else (everyone being
excluded) from the full pool. -/
lemma randomPick_spec (sorted : List Sub) (prevEmails : List String)
    (pickIdx : Nat) (hne : sorted ≠ []) :
    ∃ c ∈ sorted, randomPick sorted prevEmails pickIdx =
        some (displayName c, pyStrip c.email, pyStrip c.link) ∧
      (¬ pyLower (pyStrip c.email) ∈ prevEmails ∨
        ∀ e ∈ sorted, pyLower (pyStrip e.email) ∈ prevEmails) := by
  rcases hel : sorted.filter
      (fun e => decide (¬ pyLower (pyStrip e.email) ∈ prevEmails)) with
    _ | ⟨p, ps⟩
  · have hpool : poolFor sorted prevEmails = sorted := by
      unfold poolFor
      rw [hel, if_pos rfl]
    obtain ⟨p, ps, rfl⟩ := List.exists_cons_of_ne_nil hne
    refine ⟨(p :: ps).getD (pickIdx % (p :: ps).length) p,
      cons_getD_mod_mem p ps pickIdx, ?_, Or.inr fun e hemem => ?_⟩
    · unfold randomPick
      rw [hpool]
    · have := List.filter_eq_nil_iff.1 hel e hemem
      simpa using this
  · have hpool : poolFor sorted prevEmails = p :: ps := by
      unfold poolFor
      rw [hel, if_neg (by simp)]
    have hmem := cons_getD_mod_mem p ps pickIdx
    have hmem' : (p :: ps).getD (pickIdx % (p :: ps).length) p ∈
        sorted.filter
          (fun e => decide (¬ pyLower (pyStrip e.email) ∈ prevEmails)) := by
      rw [hel]
      exact hmem
    refine ⟨(p :: ps).getD (pickIdx % (p :: ps).length) p,
      List.mem_of_mem_filter hmem', ?_, Or.inl ?_⟩
    · unfold randomPick
      rw [hpool]
    · have hprop := List.of_mem_filter hmem'
      simpa using hprop

/-! ## Claim C5 -/

/-- C5: swag-winner stability.  If the prior WinnerRecord's `(name, email)`
pair is still among this run's correct entries and the email is not
excluded, the selection keeps exactly that winner, for every resolution of
the random choice (no re-roll).  `hstrip` records that parsed submission
emails are already stripped, as the winners parser guarantees. -/
theorem swag_winner_stability (fmtDt : Int → String) (g : WGame)
    (subs : List Sub) (prevEmails : List String) (pn pe : String)
    (pickIdx : Nat)
    (hstrip : ∀ e ∈ subs, pyStrip e.email = e.email)
    (hmem : (pn, pe) ∈ (correctEntries g subs).map
      fun e => (displayName e, pyStrip e.email))
    (hexcl : ¬ pyLower (pyStrip pe) ∈ prevEmails) :
    (winnerRowFor fmtDt g subs prevEmails (pn, pe) pickIdx).swagName = pn ∧
    (winnerRowFor fmtDt g subs prevEmails (pn, pe) pickIdx).swagEmail = pe := by
  obtain ⟨e, he, heq⟩ := List.mem_map.1 hmem
  obtain ⟨hesubs, hfn, hem⟩ := correctEntries_props he
  injection heq with h1 h2
  subst h1
  subst h2
  have hpe_ne : pyStrip e.email ≠ "" := by
    rw [hstrip e hesubs]; exact hem
  have hpn_ne : displayName e ≠ "" := displayName_ne_empty hfn
  have hpairs : (displayName e, pyStrip e.email) ∈
      (sortedByName (correctEntries g subs)).map
        fun x => (displayName x, pyStrip x.email) := by
    refine List.mem_map.2 ⟨e, ?_, rfl⟩
    unfold sortedByName
    exact (mem_sortLe _ _ _).2 he
  have hk : ∃ lnk, keptPrior (sortedByName (correctEntries g subs)) prevEmails
      (displayName e, pyStrip e.email) =
        some (displayName e, pyStrip e.email, lnk) := by
    unfold keptPrior
    split
    · exact ⟨_, rfl⟩
    · rename_i hcond
      exact absurd ⟨hpn_ne, hpe_ne, hpairs, hexcl⟩ hcond
  obtain ⟨lnk, hk⟩ := hk
  constructor
  · rw [winnerRowFor_swagName]
    unfold chosenSwag
    rw [hk]
    rfl
  · rw [winnerRowFor_swagEmail]
    unfold chosenSwag
    rw [hk]
    rfl

/-- C5 witness: with a prior record `("Ben L.", "b@x.com")` still correct
and not excluded, the rerun keeps Ben for any random index. -/
theorem swag_winner_stability_w :
    (winnerRowFor (fun _ => "") ⟨"Riddler", 0, 10, "q", "a"⟩
      [⟨"Riddler", some 5, "Amy", "K", "a@x.com", "Correct", "", "l1"⟩,
       ⟨"Riddler", some 6, "Ben", "L", "b@x.com", "Correct", "", "l2"⟩]
      ["z@x.com"] ("Ben L.", "b@x.com") 0).swagName = "Ben L." ∧
    (winnerRowFor (fun _ => "") ⟨"Riddler", 0, 10, "q", "a"⟩
      [⟨"Riddler", some 5, "Amy", "K", "a@x.com", "Correct", "", "l1"⟩,
       ⟨"Riddler", some 6, "Ben", "L", "b@x.com", "Correct", "", "l2"⟩]
      ["z@x.com"] ("Ben L.", "b@x.com") 0).swagEmail = "b@x.com" :=
  swag_winner_stability (fun _ => "") ⟨"Riddler", 0, 10, "q", "a"⟩
    [⟨"Riddler", some 5, "Amy", "K", "a@x.com", "Correct", "", "l1"⟩,
     ⟨"Riddler", some 6, "Ben", "L", "b@x.com", "Correct", "", "l2"⟩]
    ["z@x.com"] "Ben L." "b@x.com" 0 (by decide) (by decide) (by decide)

/-! ## Claim C6 -/

/-- C6: exclusion fallback.  Whenever a window has at least one correct
entry, a swag winner is recorded (non-empty name), and either the chosen
email is outside the exclusion set or every correct entry's email is
excluded (the fallback pool), for every resolution of the random choice. -/
theorem exclusion_fallback_always_chooses (fmtDt : Int → String) (g : WGame)
    (subs : List Sub) (prevEmails : List String) (existing : String × String)
    (pickIdx : Nat)
    (hstrip : ∀ e ∈ subs, pyStrip e.email = e.email)
    (hne : correctEntries g subs ≠ []) :
    (winnerRowFor fmtDt g subs prevEmails existing pickIdx).swagName ≠ "" ∧
    (¬ pyLower (pyStrip
        (winnerRowFor fmtDt g subs prevEmails existing pickIdx).swagEmail)
      ∈ prevEmails ∨
      ∀ e ∈ correctEntries g subs,
        pyLower (pyStrip e.email) ∈ prevEmails) := by
  have hsne : sortedByName (correctEntries g subs) ≠ [] := by
    intro h
    exact hne ((sortedByName_eq_nil_iff _).1 h)
  rw [winnerRowFor_swagName, winnerRowFor_swagEmail]
  cases hk : keptPrior (sortedByName (correctEntries g subs)) prevEmails
      existing with
  | some k =>
    obtain ⟨h1, h2, hpn, _, _, hexcl⟩ := keptPrior_eq_some hk
    unfold chosenSwag
    rw [hk]
    refine ⟨?_, Or.inl ?_⟩
    · show k.1 ≠ ""
      rw [h1]
      exact hpn
    · show ¬ pyLower (pyStrip k.2.1) ∈ prevEmails
      rw [h2]
      exact hexcl
  | none =>
    obtain ⟨c, hcmem, heq, hdisj⟩ :=
      randomPick_spec (sortedByName (correctEntries g subs)) prevEmails
        pickIdx hsne
    have hccorrect : c ∈ correctEntries g subs := by
      unfold sortedByName at hcmem
      exact (mem_sortLe _ _ _).1 hcmem
    obtain ⟨hcsubs, hcfn, _⟩ := correctEntries_props hccorrect
    unfold chosenSwag
    rw [hk, heq]
    constructor
    · show displayName c ≠ ""
      exact displayName_ne_empty hcfn
    · rcases hdisj with h | h
      · left
        show ¬ pyLower (pyStrip (pyStrip c.email)) ∈ prevEmails
        have hcs : pyStrip c.email = c.email := hstrip c hcsubs
        simp only [hcs] at h ⊢
        exact h
      · right
        intro e he
        refine h e ?_
        unfold sortedByName
        exact (mem_sortLe _ _ _).2 he

/-- C6 witness: the only correct entry's email is excluded, yet a swag
winner is still recorded from the fallback pool. -/
theorem exclusion_fallback_always_chooses_w :
    (winnerRowFor (fun _ => "") ⟨"Riddler", 0, 10, "q", "a"⟩
      [⟨"Riddler", some 5, "Amy", "K", "a@x.com", "Correct", "", "l1"⟩]
      ["a@x.com"] ("", "") 0).swagName ≠ "" ∧
    (¬ pyLower (pyStrip
        (winnerRowFor (fun _ => "") ⟨"Riddler", 0, 10, "q", "a"⟩
          [⟨"Riddler", some 5, "Amy", "K", "a@x.com", "Correct", "", "l1"⟩]
          ["a@x.com"] ("", "") 0).swagEmail) ∈ ["a@x.com"] ∨
      ∀ e ∈ correctEntries ⟨"Riddler", 0, 10, "q", "a"⟩
          [⟨"Riddler", some 5, "Amy", "K", "a@x.com", "Correct", "", "l1"⟩],
        pyLower (pyStrip e.email) ∈ ["a@x.com"]) :=
  exclusion_fallback_always_chooses (fun _ => "") ⟨"Riddler", 0, 10, "q", "a"⟩
    [⟨"Riddler", some 5, "Amy", "K", "a@x.com", "Correct", "", "l1"⟩]
    ["a@x.com"] ("", "") 0 (by decide) (by decide)

/-! ## Claim C8 -/

/-- C8: WinnerRecord membership invariant.  Whenever the de-duplicated
all-winners name list is non-empty, the recorded swag winner's display name
is one of its elements — on both the keep-prior and the random-choice
paths. -/
theorem swag_winner_mem_all_winners (fmtDt : Int → String) (g : WGame)
    (subs : List Sub) (prevEmails : List String) (existing : String × String)
    (pickIdx : Nat)
    (hnames :
      (winnerRowFor fmtDt g subs prevEmails existing pickIdx).winnersNames
        ≠ []) :
    (winnerRowFor fmtDt g subs prevEmails existing pickIdx).swagName ∈
      (winnerRowFor fmtDt g subs prevEmails existing pickIdx).winnersNames := by
  rw [winnerRowFor_winnersNames] at hnames ⊢
  rw [winnerRowFor_swagName]
  have hsne : sortedByName (correctEntries g subs) ≠ [] := by
    intro h
    apply hnames
    rw [h]
    rfl
  cases hk : keptPrior (sortedByName (correctEntries g subs)) prevEmails
      existing with
  | some k =>
    obtain ⟨h1, _, _, _, hpair, _⟩ := keptPrior_eq_some hk
    unfold chosenSwag
    rw [hk]
    show k.1 ∈ _
    rw [h1, mem_map_displayName_dedupEntries]
    obtain ⟨e, he, heq⟩ := List.mem_map.1 hpair
    injection heq with hq1 _
    exact ⟨by simp, List.mem_map.2 ⟨e, he, hq1⟩⟩
  | none =>
    obtain ⟨c, hcmem, heq, _⟩ :=
      randomPick_spec (sortedByName (correctEntries g subs)) prevEmails
        pickIdx hsne
    unfold chosenSwag
    rw [hk, heq]
    show displayName c ∈ _
    rw [mem_map_displayName_dedupEntries]
    exact ⟨by simp, List.mem_map_of_mem displayName hcmem⟩

/-- C8 witness: with two correct entries and no prior record, the chosen
swag winner's name is in the all-winners list. -/
theorem swag_winner_mem_all_winners_w :
    (winnerRowFor (fun _ => "") ⟨"Riddler", 0, 10, "q", "a"⟩
      [⟨"Riddler", some 5, "Amy", "K", "a@x.com", "Correct", "", "l1"⟩,
       ⟨"Riddler", some 6, "Ben", "L", "b@x.com", "Correct", "", "l2"⟩]
      [] ("", "") 1).swagName ∈
    (winnerRowFor (fun _ => "") ⟨"Riddler", 0, 10, "q", "a"⟩
      [⟨"Riddler", some 5, "Amy", "K", "a@x.com", "Correct", "", "l1"⟩,
       ⟨"Riddler", some 6, "Ben", "L", "b@x.com", "Correct", "", "l2"⟩]
      [] ("", "") 1).winnersNames :=
  swag_winner_mem_all_winners (fun _ => "") ⟨"Riddler", 0, 10, "q", "a"⟩
    [⟨"Riddler", some 5, "Amy", "K", "a@x.com", "Correct", "", "l1"⟩,
     ⟨"Riddler", some 6, "Ben", "L", "b@x.com", "Correct", "", "l2"⟩]
    [] ("", "") 1 (by decide)

/-! ## Claim C1 -/

/-- C1 (code bug): the batched persistence of `grade_submissions_for_sheet`
erases an already-graded row.  On a sheet where row 4 already holds
`("Correct", "90%")` and rows 3 and 5 are newly graded, the row is skipped
(the grading service is not invoked for it), but the single block write
`G3:H5` fills the skipped middle row with `["", ""]`, blanking its
persisted `AI Grade` and `AI Confidence`. -/
def c1Sheet : List (List String) := [subHeaders, [],
  ["Riddler", "01/02/2025 10:00 AM", "Amy", "K", "a@x.com", "lighthouse",
    "", "", "", ""],
  ["Riddler", "01/03/2025 11:00 AM", "Ben", "L", "b@x.com", "beacon",
    "Correct", "90%", "", ""],
  ["Riddler", "01/04/2025 09:00 AM", "Cat", "M", "c@x.com", "lighthouse",
    "", "", "", ""]]

def c1ParseDt : String → Option Int := fun s =>
  if s = "01/02/2025 10:00 AM" then some 100
  else if s = "01/03/2025 11:00 AM" then some 200
  else if s = "01/04/2025 09:00 AM" then some 300
  else none

def c1Res : GradeRunResult :=
  grade_submissions_for_sheet c1ParseDt (fun _ _ _ _ => "")
    (fun _ _ => ("Correct", "95%"))
    [⟨"Riddler", 0, 1000, "q", "lighthouse", "AI: accept lighthouse", 3, 6⟩]
    c1Sheet

theorem grading_block_write_blanks_graded_row :
    (c1Sheet.getD 3 []).getD 6 "" = "Correct" ∧
    (c1Sheet.getD 3 []).getD 7 "" = "90%" ∧
    ((c1Res).rows.getD 3 []).getD 6 "" = "" ∧
    ((c1Res).rows.getD 3 []).getD 7 "" = "" ∧
    (c1Res).serviced = [3, 5] ∧
    ¬ 4 ∈ (c1Res).serviced := by
  decide

/-! ## Claim C7 -/

/-- C7 counterexample: ingestion is not idempotent for a message whose
sender email is empty.  The first run stores the submission row, but
`_load_existing_keys` drops rows with an empty email from the key set, so
the second run over the same mail source appends a duplicate row. -/
theorem ingestion_duplicates_empty_email_row :
    (ingestRun "Riddler" [subHeaders, []]
      [⟨"mid1", "01/02/2025 10:00 PM", "Amy", "K", "", "lighthouse"⟩]).length
      = 3 ∧
    (ingestRun "Riddler"
      (ingestRun "Riddler" [subHeaders, []]
        [⟨"mid1", "01/02/2025 10:00 PM", "Amy", "K", "", "lighthouse"⟩])
      [⟨"mid1", "01/02/2025 10:00 PM", "Amy", "K", "", "lighthouse"⟩]).length
      = 4 := by
  decide

/-! ### Timestamp round-trip lemmas -/

lemma ofNat_digit_toNat {k : Nat} (h : k < 10) :
    (Char.ofNat (48 + k)).toNat = 48 + k := by
  interval_cases k <;> decide

lemma ofNat_digit_isDigit {k : Nat} (h : k < 10) :
    (Char.ofNat (48 + k)).isDigit = true := by
  interval_cases k <;> decide

lemma natToCharsAux_spec :
    ∀ fuel n, n < fuel →
      natToCharsAux fuel n ≠ [] ∧
      (∀ c ∈ natToCharsAux fuel n, c.isDigit = true) ∧
      digitsToNat (natToCharsAux fuel n) = n := by
  intro fuel
  induction fuel with
  | zero => intro n h; exact absurd h (Nat.not_lt_zero n)
  | succ f ih =>
    intro n h
    by_cases h10 : n < 10
    · unfold natToCharsAux
      rw [if_pos h10]
      refine ⟨by simp, ?_, ?_⟩
      · intro c hc
        rw [List.mem_singleton] at hc
        subst hc
        exact ofNat_digit_isDigit h10
      · unfold digitsToNat
        simp only [List.foldl_cons, List.foldl_nil, Nat.zero_mul, Nat.zero_add]
        rw [ofNat_digit_toNat h10]
        omega
    · unfold natToCharsAux
      rw [if_neg h10]
      have hdiv : n / 10 < f := by
        have h1 : n / 10 < n := Nat.div_lt_self (by omega) (by omega)
        omega
      obtain ⟨hne, hdig, hval⟩ := ih (n / 10) hdiv
      have hm : n % 10 < 10 := Nat.mod_lt _ (by omega)
      refine ⟨by simp, ?_, ?_⟩
      · intro c hc
        rcases List.mem_append.1 hc with h1 | h2
        · exact hdig c h1
        · rw [List.mem_singleton] at h2
          subst h2
          exact ofNat_digit_isDigit hm
      · unfold digitsToNat at hval ⊢
        rw [List.foldl_append]
        simp only [List.foldl_cons, List.foldl_nil]
        rw [hval, ofNat_digit_toNat hm]
        omega

lemma natToChars_spec (n : Nat) :
    natToChars n ≠ [] ∧ (∀ c ∈ natToChars n, c.isDigit = true) ∧
      digitsToNat (natToChars n) = n :=
  natToCharsAux_spec (n + 1) n (Nat.lt_succ_self n)

lemma pad2_spec (n : Nat) :
    pad2 n ≠ [] ∧ (∀ c ∈ pad2 n, c.isDigit = true) ∧
      digitsToNat (pad2 n) = n := by
  obtain ⟨h1, h2, h3⟩ := natToChars_spec n
  unfold pad2
  split
  · refine ⟨by simp, ?_, ?_⟩
    · intro c hc
      rcases List.mem_cons.1 hc with rfl | h
      · decide
      · exact h2 c h
    · unfold digitsToNat at h3 ⊢
      simp only [List.foldl_cons]
      have : (0 : Nat) * 10 + ('0'.toNat - 48) = 0 := by decide
      rw [this, h3]
  · exact ⟨h1, h2, h3⟩

lemma readNat_digits_append (ds rest : List Char) (hne : ds ≠ [])
    (hdig : ∀ c ∈ ds, c.isDigit = true)
    (hrest : ∀ c, rest.head? = some c → c.isDigit = false) :
    readNat (ds ++ rest) = some (digitsToNat ds, rest) := by
  have htrest : rest.takeWhile Char.isDigit = [] := by
    cases rest with
    | nil => rfl
    | cons c cs =>
      rw [List.takeWhile_cons_of_neg]
      simp [hrest c rfl]
  have ht : (ds ++ rest).takeWhile Char.isDigit = ds := by
    rw [List.takeWhile_append_of_pos hdig, htrest, List.append_nil]
  unfold readNat
  rw [ht, if_neg hne, List.drop_left]

/-- The nested-append normal form of a formatted timestamp. -/
lemma fmtTs_data (t : Ts) : (fmtTs t).data =
    pad2 t.month ++ '/' :: (pad2 t.day ++ '/' :: (natToChars t.year ++
      ' ' :: (pad2 t.hour ++ ':' :: (pad2 t.minute ++
      ' ' :: (if t.pm then ['P', 'M'] else ['A', 'M']))))) := by
  show (pad2 t.month ++ '/' :: pad2 t.day ++ '/' :: natToChars t.year ++
    ' ' :: pad2 t.hour ++ ':' :: pad2 t.minute ++
    ' ' :: (if t.pm then ['P', 'M'] else ['A', 'M'])) = _
  simp [List.append_assoc]

lemma getLast?_append_ne_nil {α : Type} (x : List α) {y : List α}
    (hy : y ≠ []) : (x ++ y).getLast? = y.getLast? := by
  rw [List.getLast?_append]
  cases hyl : y.getLast? with
  | none => exact absurd (List.getLast?_eq_none_iff.1 hyl) hy
  | some a => rfl

lemma parseTs_fmtTs (t : Ts) : parseTs (fmtTs t) = some t := by
  obtain ⟨mo, dy, yr, hr, mi, pm⟩ := t
  obtain ⟨hm1, hm2, hm3⟩ := pad2_spec mo
  obtain ⟨hd1, hd2, hd3⟩ := pad2_spec dy
  obtain ⟨hy1, hy2, hy3⟩ := natToChars_spec yr
  obtain ⟨hh1, hh2, hh3⟩ := pad2_spec hr
  obtain ⟨hmi1, hmi2, hmi3⟩ := pad2_spec mi
  unfold parseTs parseTsChars
  rw [fmtTs_data]
  cases pm with
  | false =>
    simp only [Bool.false_eq_true, if_false]
    have e5 : readNat (pad2 mi ++ [' ', 'A', 'M']) = some (mi, [' ', 'A', 'M']) := by
      rw [readNat_digits_append _ _ hmi1 hmi2 (by intro c hc; cases hc; decide),
        hmi3]
    have e4 : readNat (pad2 hr ++ ':' :: (pad2 mi ++ [' ', 'A', 'M'])) = some (hr, ':' :: (pad2 mi ++ [' ', 'A', 'M'])) := by
      rw [readNat_digits_append _ _ hh1 hh2 (by intro c hc; cases hc; decide),
        hh3]
    have e3 : readNat (natToChars yr ++ ' ' :: (pad2 hr ++ ':' :: (pad2 mi ++ [' ', 'A', 'M']))) = some (yr, ' ' :: (pad2 hr ++ ':' :: (pad2 mi ++ [' ', 'A', 'M']))) := by
      rw [readNat_digits_append _ _ hy1 hy2 (by intro c hc; cases hc; decide),
        hy3]
    have e2 : readNat (pad2 dy ++ '/' :: (natToChars yr ++ ' ' :: (pad2 hr ++ ':' :: (pad2 mi ++ [' ', 'A', 'M'])))) = some (dy, '/' :: (natToChars yr ++ ' ' :: (pad2 hr ++ ':' :: (pad2 mi ++ [' ', 'A', 'M'])))) := by
      rw [readNat_digits_append _ _ hd1 hd2 (by intro c hc; cases hc; decide),
        hd3]
    have e1 : readNat (pad2 mo ++ '/' :: (pad2 dy ++ '/' :: (natToChars yr ++ ' ' :: (pad2 hr ++ ':' :: (pad2 mi ++ [' ', 'A', 'M']))))) = some (mo, '/' :: (pad2 dy ++ '/' :: (natToChars yr ++ ' ' :: (pad2 hr ++ ':' :: (pad2 mi ++ [' ', 'A', 'M']))))) := by
      rw [readNat_digits_append _ _ hm1 hm2 (by intro c hc; cases hc; decide),
        hm3]
    simp only [e1, e2, e3, e4, e5]
  | true =>
    simp only [if_true]
    have e5 : readNat (pad2 mi ++ [' ', 'P', 'M']) = some (mi, [' ', 'P', 'M']) := by
      rw [readNat_digits_append _ _ hmi1 hmi2 (by intro c hc; cases hc; decide),
        hmi3]
    have e4 : readNat (pad2 hr ++ ':' :: (pad2 mi ++ [' ', 'P', 'M'])) = some (hr, ':' :: (pad2 mi ++ [' ', 'P', 'M'])) := by
      rw [readNat_digits_append _ _ hh1 hh2 (by intro c hc; cases hc; decide),
        hh3]
    have e3 : readNat (natToChars yr ++ ' ' :: (pad2 hr ++ ':' :: (pad2 mi ++ [' ', 'P', 'M']))) = some (yr, ' ' :: (pad2 hr ++ ':' :: (pad2 mi ++ [' ', 'P', 'M']))) := by
      rw [readNat_digits_append _ _ hy1 hy2 (by intro c hc; cases hc; decide),
        hy3]
    have e2 : readNat (pad2 dy ++ '/' :: (natToChars yr ++ ' ' :: (pad2 hr ++ ':' :: (pad2 mi ++ [' ', 'P', 'M'])))) = some (dy, '/' :: (natToChars yr ++ ' ' :: (pad2 hr ++ ':' :: (pad2 mi ++ [' ', 'P', 'M'])))) := by
      rw [readNat_digits_append _ _ hd1 hd2 (by intro c hc; cases hc; decide),
        hd3]
    have e1 : readNat (pad2 mo ++ '/' :: (pad2 dy ++ '/' :: (natToChars yr ++ ' ' :: (pad2 hr ++ ':' :: (pad2 mi ++ [' ', 'P', 'M']))))) = some (mo, '/' :: (pad2 dy ++ '/' :: (natToChars yr ++ ' ' :: (pad2 hr ++ ':' :: (pad2 mi ++ [' ', 'P', 'M']))))) := by
      rw [readNat_digits_append _ _ hm1 hm2 (by intro c hc; cases hc; decide),
        hm3]
    simp only [e1, e2, e3, e4, e5]

lemma fmtTs_ne_empty (t : Ts) : fmtTs t ≠ "" := by
  rw [Ne, string_eq_empty_iff, fmtTs_data]
  intro h
  rw [List.append_eq_nil] at h
  exact (pad2_spec t.month).1 h.1

lemma fmtTs_getLast (t : Ts) : (fmtTs t).data.getLast? = some 'M' := by
  have hsplit : (fmtTs t).data =
      (pad2 t.month ++ '/' :: (pad2 t.day ++ '/' :: (natToChars t.year ++
        ' ' :: (pad2 t.hour ++ ':' :: (pad2 t.minute ++ [' ']))))) ++
        (if t.pm then ['P', 'M'] else ['A', 'M']) := by
    rw [fmtTs_data]
    simp [List.append_assoc]
  rw [hsplit, getLast?_append_ne_nil _ (by cases t.pm <;> simp)]
  cases t.pm <;> rfl

lemma fmtTs_strip (t : Ts) : pyStrip (fmtTs t) = fmtTs t := by
  have hhead : ∀ c, (fmtTs t).data.head? = some c → pyIsSpace c = false := by
    intro c hc
    rw [fmtTs_data, List.head?_append] at hc
    obtain ⟨d, ds, hds⟩ := List.exists_cons_of_ne_nil (pad2_spec t.month).1
    rw [hds] at hc
    simp only [List.head?_cons, Option.or_some] at hc
    cases hc
    exact pyIsSpace_eq_false_of_isDigit
      ((pad2_spec t.month).2.1 c (by rw [hds]; exact List.mem_cons_self c ds))
  have hlast : ∀ c, (fmtTs t).data.getLast? = some c → pyIsSpace c = false := by
    intro c hc
    rw [fmtTs_getLast t] at hc
    cases hc
    decide
  exact String.ext (stripChars_eq_self hhead hlast)

lemma normTs_fmtTs (t : Ts) : _normalize_ts_str (pyStrip (fmtTs t)) = fmtTs t := by
  rw [fmtTs_strip]
  unfold _normalize_ts_str
  rw [if_neg (fmtTs_ne_empty t), parseTs_fmtTs]

/-! ### Cell/row access lemmas -/

lemma getD_set_self {α : Type} (l : List α) (i : Nat) (a d : α)
    (h : i < l.length) : (l.set i a).getD i d = a := by
  rw [List.getD_eq_getElem?_getD, List.getElem?_set_self h]
  rfl

lemma getD_set_ne {α : Type} (l : List α) (i j : Nat) (a d : α)
    (h : i ≠ j) : (l.set i a).getD j d = l.getD j d := by
  rw [List.getD_eq_getElem?_getD, List.getElem?_set_ne h,
    ← List.getD_eq_getElem?_getD]

lemma getD_drop {α : Type} (l : List α) (n m : Nat) (d : α) :
    (l.drop n).getD m d = l.getD (n + m) d := by
  rw [List.getD_eq_getElem?_getD, List.getElem?_drop,
    ← List.getD_eq_getElem?_getD]

lemma getD_append_left {α : Type} (l1 l2 : List α) (j : Nat) (d : α)
    (h : j < l1.length) : (l1 ++ l2).getD j d = l1.getD j d := by
  rw [List.getD_eq_getElem?_getD, List.getElem?_append_left h,
    ← List.getD_eq_getElem?_getD]

lemma getD_append_right {α : Type} (l1 l2 : List α) (j : Nat) (d : α)
    (h : l1.length ≤ j) :
    (l1 ++ l2).getD j d = l2.getD (j - l1.length) d := by
  rw [List.getD_eq_getElem?_getD, List.getElem?_append_right h,
    ← List.getD_eq_getElem?_getD]

lemma getD_mem {α : Type} (l : List α) (j : Nat) (d : α) (h : j < l.length) :
    l.getD j d ∈ l := by
  rw [List.getD_eq_getElem?_getD, List.getElem?_eq_getElem h]
  exact List.getElem_mem h

lemma getD_append_replicate_empty (r : List String) (j k : Nat) :
    (r ++ List.replicate k "").getD j "" = r.getD j "" := by
  rcases Nat.lt_or_ge j r.length with h | h
  · exact getD_append_left r _ j "" h
  · rw [getD_append_right _ _ j "" h]
    have h1 : r.getD j "" = "" := by
      rw [List.getD_eq_getElem?_getD, List.getElem?_eq_none h]
      rfl
    rw [h1, List.getD_eq_getElem?_getD, List.getElem?_replicate]
    split <;> rfl

lemma setInRow_getD_ne (r : List String) (v : String) (j : Nat) (h : j ≠ 9) :
    (setInRow r 9 v).getD j "" = r.getD j "" := by
  unfold setInRow
  rw [getD_set_ne _ _ _ _ _ (fun hc => h hc.symm), getD_append_replicate_empty]

lemma setInRow_getD9 (r : List String) (v : String) :
    (setInRow r 9 v).getD 9 "" = v := by
  unfold setInRow
  rw [getD_set_self]
  rw [List.length_append, List.length_replicate]
  omega

lemma rowKey_setInRow9 (r : List String) (v : String) :
    rowKey? (setInRow r 9 v) = rowKey? r := by
  unfold rowKey?
  rw [setInRow_getD_ne r v 0 (by decide), setInRow_getD_ne r v 1 (by decide),
    setInRow_getD_ne r v 4 (by decide), setInRow_getD_ne r v 5 (by decide)]

/-! ### `applyLinks` lemmas -/

lemma applyLinks_length (rows : List (List String))
    (upds : List (Nat × String)) :
    (applyLinks rows upds).length = rows.length := by
  induction upds generalizing rows with
  | nil => rfl
  | cons u us ih =>
    unfold applyLinks at ih ⊢
    rw [List.foldl_cons, ih]
    unfold setCell
    rw [List.length_set]

lemma setCell_getD_row_ne (rows : List (List String)) (r c : Nat) (v : String)
    (j : Nat) (h : r - 1 ≠ j) :
    (setCell rows r c v).getD j [] = rows.getD j [] := by
  unfold setCell
  rw [getD_set_ne _ _ _ _ _ h]

lemma setCell_getD_row_self (rows : List (List String)) (r : Nat) (v : String)
    (h : r - 1 < rows.length) :
    (setCell rows r 9 v).getD (r - 1) [] =
      setInRow (rows.getD (r - 1) []) 9 v := by
  unfold setCell
  rw [getD_set_self _ _ _ _ h]

lemma applyLinks_rowKey (rows : List (List String))
    (upds : List (Nat × String)) (j : Nat) :
    rowKey? ((applyLinks rows upds).getD j []) =
      rowKey? (rows.getD j []) := by
  induction upds generalizing rows with
  | nil => rfl
  | cons u us ih =>
    unfold applyLinks at ih ⊢
    rw [List.foldl_cons, ih]
    by_cases h : u.1 - 1 = j
    · subst h
      rcases Nat.lt_or_ge (u.1 - 1) rows.length with hlt | hge
      · rw [setCell_getD_row_self rows u.1 u.2 hlt, rowKey_setInRow9]
      · unfold setCell
        rw [List.set_eq_of_length_le hge]
    · rw [setCell_getD_row_ne rows u.1 9 u.2 j h]

lemma applyLinks_getD_untouched (rows : List (List String))
    (upds : List (Nat × String)) (j : Nat) (h : ∀ u ∈ upds, u.1 - 1 ≠ j) :
    (applyLinks rows upds).getD j [] = rows.getD j [] := by
  induction upds generalizing rows with
  | nil => rfl
  | cons u us ih =>
    unfold applyLinks at ih ⊢
    rw [List.foldl_cons, ih _ (fun u' hu' => h u' (List.mem_cons_of_mem u hu')),
      setCell_getD_row_ne rows u.1 9 u.2 j (h u (List.mem_cons_self u us))]

lemma applyLinks_getD9_ne (rows : List (List String))
    (upds : List (Nat × String)) (j : Nat) (hj : j < rows.length)
    (hvals : ∀ u ∈ upds, u.2 ≠ "")
    (hcase : (rows.getD j []).getD 9 "" ≠ "" ∨ ∃ u ∈ upds, u.1 - 1 = j) :
    ((applyLinks rows upds).getD j []).getD 9 "" ≠ "" := by
  induction upds generalizing rows with
  | nil =>
    rcases hcase with h | ⟨u, hu, _⟩
    · exact h
    · cases hu
  | cons u us ih =>
    unfold applyLinks at ih ⊢
    rw [List.foldl_cons]
    have hlen : j < (setCell rows u.1 9 u.2).length := by
      unfold setCell
      rw [List.length_set]
      exact hj
    refine ih (setCell rows u.1 9 u.2) hlen
      (fun u' hu' => hvals u' (List.mem_cons_of_mem u hu')) ?_
    by_cases h : u.1 - 1 = j
    · left
      subst h
      rw [setCell_getD_row_self rows u.1 u.2 hj, setInRow_getD9]
      exact hvals u (List.mem_cons_self u us)
    · rcases hcase with hc | ⟨u', hu', hju'⟩
      · left
        rw [setCell_getD_row_ne rows u.1 9 u.2 j h]
        exact hc
      · rcases List.mem_cons.1 hu' with rfl | hmem
        · exact absurd hju' h
        · exact Or.inr ⟨u', hmem, hju'⟩

/-! ### `keyRows`/`loadKeys` lemmas -/

lemma keyRowsAux_congr (l1 l2 : List (List String)) (i : Nat)
    (hlen : l1.length = l2.length)
    (hkeys : ∀ p, rowKey? (l1.getD p []) = rowKey? (l2.getD p [])) :
    keyRowsAux i l1 = keyRowsAux i l2 := by
  induction l1 generalizing l2 i with
  | nil =>
    cases l2 with
    | nil => rfl
    | cons _ _ => cases hlen
  | cons r rs ih =>
    cases l2 with
    | nil => cases hlen
    | cons r' rs' =>
      have h0 := hkeys 0
      simp only [List.getD_cons_zero] at h0
      unfold keyRowsAux
      rw [h0]
      have htail : keyRowsAux (i + 1) rs = keyRowsAux (i + 1) rs' :=
        ih rs' (i + 1) (by simpa using hlen)
          (fun p => by simpa using hkeys (p + 1))
      rw [htail]

lemma keyRowsAux_append (A B : List (List String)) (i : Nat) :
    keyRowsAux i (A ++ B) = keyRowsAux i A ++ keyRowsAux (i + A.length) B := by
  induction A generalizing i with
  | nil => simp [keyRowsAux]
  | cons r rs ih =>
    simp only [List.cons_append, keyRowsAux, List.append_eq]
    cases rowKey? r with
    | some k =>
      simp only [List.cons_append]
      have h : i + 1 + rs.length = i + (rs.length + 1) := by omega
      rw [ih (i + 1), List.length_cons, h]
    | none =>
      simp only
      have h : i + 1 + rs.length = i + (rs.length + 1) := by omega
      rw [ih (i + 1), List.length_cons, h]

lemma mem_keyRowsAux (l : List (List String)) (i : Nat) (k : SubKey) (j : Nat) :
    (k, j) ∈ keyRowsAux i l ↔
      i ≤ j ∧ j - i < l.length ∧ rowKey? (l.getD (j - i) []) = some k := by
  induction l generalizing i with
  | nil => simp [keyRowsAux]
  | cons r rs ih =>
    unfold keyRowsAux
    cases hk : rowKey? r with
    | some k' =>
      simp only [List.mem_cons, ih, Prod.mk.injEq]
      constructor
      · rintro (⟨rfl, rfl⟩ | ⟨h1, h2, h3⟩)
        · refine ⟨Nat.le_refl _, by simp, ?_⟩
          rw [Nat.sub_self]
          simpa using hk
        · refine ⟨by omega, by simp; omega, ?_⟩
          have hji : j - i = (j - (i + 1)) + 1 := by omega
          rw [hji]
          simpa using h3
      · rintro ⟨h1, h2, h3⟩
        rcases Nat.eq_or_lt_of_le h1 with rfl | hlt
        · rw [Nat.sub_self] at h3
          simp only [List.getD_cons_zero] at h3
          rw [hk] at h3
          cases h3
          exact Or.inl ⟨rfl, rfl⟩
        · refine Or.inr ⟨by omega, by simp at h2; omega, ?_⟩
          have hji : j - i = (j - (i + 1)) + 1 := by omega
          rw [hji] at h3
          simpa using h3
    | none =>
      rw [ih]
      constructor
      · rintro ⟨h1, h2, h3⟩
        refine ⟨by omega, by simp; omega, ?_⟩
        have hji : j - i = (j - (i + 1)) + 1 := by omega
        rw [hji]
        simpa using h3
      · rintro ⟨h1, h2, h3⟩
        rcases Nat.eq_or_lt_of_le h1 with rfl | hlt
        · rw [Nat.sub_self] at h3
          simp only [List.getD_cons_zero] at h3
          rw [hk] at h3
          cases h3
        · refine ⟨by omega, by simp at h2; omega, ?_⟩
          have hji : j - i = (j - (i + 1)) + 1 := by omega
          rw [hji] at h3
          simpa using h3

lemma loadKeys_eq_map_keyRows (rows : List (List String)) :
    loadKeys rows = (keyRows rows).map (·.1) := by
  unfold loadKeys keyRows
  generalize rows.drop 2 = l
  generalize 3 = i
  induction l generalizing i with
  | nil => rfl
  | cons r rs ih =>
    unfold keyRowsAux
    rw [List.filterMap_cons]
    cases rowKey? r with
    | some k =>
      rw [List.map_cons, ih (i + 1)]
    | none => rw [ih (i + 1)]

/-! ### `lookupLast` lemmas -/

lemma msgLink_ne_empty (mid : String) : msgLink mid ≠ "" :=
  append_ne_empty_left (by decide)

lemma keyRowsAux_map_fst (i : Nat) (l : List (List String)) :
    (keyRowsAux i l).map (fun p => p.1) = l.filterMap rowKey? := by
  induction l generalizing i with
  | nil => rfl
  | cons r rs ih =>
    unfold keyRowsAux
    rw [List.filterMap_cons]
    cases rowKey? r with
    | some k => rw [List.map_cons, ih (i + 1)]
    | none => rw [ih (i + 1)]

lemma lookupLast_mem {m : List (SubKey × Nat)} {k : SubKey} {i : Nat}
    (h : lookupLast m k = some i) : (k, i) ∈ m := by
  unfold lookupLast at h
  rw [Option.map_eq_some'] at h
  obtain ⟨p, hp, hpi⟩ := h
  obtain ⟨hne, heq⟩ := List.mem_getLast?_eq_getLast (Option.mem_def.mpr hp)
  have hmem : p ∈ m.filter (fun p => p.1 = k) := heq ▸ List.getLast_mem hne
  rw [List.mem_filter] at hmem
  obtain ⟨hm, hk⟩ := hmem
  have hpk : p.1 = k := by simpa using hk
  have hpe : p = (k, i) := by
    obtain ⟨p1, p2⟩ := p
    simp only at hpk hpi
    rw [hpk, hpi]
  rw [← hpe]
  exact hm

lemma lookupLast_eq_none (m : List (SubKey × Nat)) (k : SubKey)
    (h : ∀ p ∈ m, p.1 ≠ k) : lookupLast m k = none := by
  unfold lookupLast
  have hf : m.filter (fun p => p.1 = k) = [] := by
    rw [List.filter_eq_nil_iff]
    intro p hp
    simpa using h p hp
  rw [hf]
  rfl

lemma lookupLast_append_left_nil (a b : List (SubKey × Nat)) (k : SubKey)
    (h : ∀ p ∈ a, p.1 ≠ k) : lookupLast (a ++ b) k = lookupLast b k := by
  unfold lookupLast
  rw [List.filter_append]
  have hf : a.filter (fun p => p.1 = k) = [] := by
    rw [List.filter_eq_nil_iff]
    intro p hp
    simpa using h p hp
  rw [hf, List.nil_append]

lemma lookupLast_append_right_nil (a b : List (SubKey × Nat)) (k : SubKey)
    (h : ∀ p ∈ b, p.1 ≠ k) : lookupLast (a ++ b) k = lookupLast a k := by
  unfold lookupLast
  rw [List.filter_append]
  have hf : b.filter (fun p => p.1 = k) = [] := by
    rw [List.filter_eq_nil_iff]
    intro p hp
    simpa using h p hp
  rw [hf, List.append_nil]

/-- A hit in the `key_to_row` map points at a data row of the grid (1-based
sheet row at least 3) holding exactly that key. -/
lemma lookupLast_keyRows_bounds (rows0 : List (List String)) (k : SubKey)
    (i : Nat) (h : lookupLast (keyRows rows0) k = some i) :
    3 ≤ i ∧ i - 1 < rows0.length ∧ rowKey? (rows0.getD (i - 1) []) = some k := by
  have hmem := lookupLast_mem h
  unfold keyRows at hmem
  rw [mem_keyRowsAux] at hmem
  obtain ⟨h1, h2, h3⟩ := hmem
  rw [List.length_drop] at h2
  rw [getD_drop] at h3
  have hidx : 2 + (i - 3) = i - 1 := by omega
  rw [hidx] at h3
  exact ⟨h1, by omega, h3⟩

/-- Re-derivation of the dedup key from a freshly appended row: the sheet
stores the raw game, timestamp, email and answer, so `_load_existing_keys`
recovers exactly the in-loop key when the timestamp is in `_TS_FMT` form
and the body carries no leading/trailing whitespace. -/
lemma rowKey_newRow (game : String) (m : Msg) (hg : stripLower game ≠ "")
    (ht : ∃ t, m.tsStr = fmtTs t) (he : stripLower m.email ≠ "")
    (ha : _normalize_answer_for_key m.body ≠ "") (hb : pyStrip m.body = m.body) :
    rowKey? (newRowFor game m) = some (msgKey game m) := by
  obtain ⟨t, htt⟩ := ht
  have h0 : (newRowFor game m).getD 0 "" = game := rfl
  have h1 : (newRowFor game m).getD 1 "" = m.tsStr := rfl
  have h4 : (newRowFor game m).getD 4 "" = m.email := rfl
  have h5 : (newRowFor game m).getD 5 "" = m.body := rfl
  have hn : _normalize_ts_str (fmtTs t) = fmtTs t := by
    rw [← fmtTs_strip t, normTs_fmtTs, fmtTs_strip]
  unfold rowKey?
  rw [h0, h1, h4, h5, htt, fmtTs_strip, hn, hb, ← htt]
  rw [if_pos ⟨hg, by rw [htt]; exact fmtTs_ne_empty t, he, ha⟩]
  rfl

lemma foldl_fixed {α β : Type} (f : β → α → β) (init : β) (l : List α)
    (h : ∀ a ∈ l, f init a = init) : l.foldl f init = init := by
  induction l with
  | nil => rfl
  | cons a as ih =>
    rw [List.foldl_cons, h a (List.mem_cons_self a as)]
    exact ih (fun a' ha' => h a' (List.mem_cons_of_mem a ha'))

/-- A run in which every message's step leaves the initial loop state
untouched writes nothing: the grid comes back unchanged. -/
lemma ingestRun_of_fixed (game : String) (rows : List (List String))
    (msgs : List Msg)
    (h : ∀ m ∈ msgs, ingestStep game rows (keyRows rows)
      ⟨[], loadKeys rows, []⟩ m = ⟨[], loadKeys rows, []⟩) :
    ingestRun game rows msgs = rows := by
  show applyLinks
      (rows ++ (msgs.foldl (ingestStep game rows (keyRows rows))
        ⟨[], loadKeys rows, []⟩).newRows)
      (msgs.foldl (ingestStep game rows (keyRows rows))
        ⟨[], loadKeys rows, []⟩).linkUpds = rows
  rw [foldl_fixed (ingestStep game rows (keyRows rows))
    ⟨[], loadKeys rows, []⟩ msgs h]
  show applyLinks (rows ++ []) [] = rows
  rw [List.append_nil]
  rfl

/-! ### The fetch-loop invariant -/

/-- Invariant of the fetch loop after the messages in `P` have been
processed against the initial grid `rows0`: the growing key set is exactly
the loaded keys plus the keys of the queued rows; every queued row carries
a non-empty Link cell and a key absent from the sheet; every queued Link
backfill targets an in-range sheet row with a non-empty value; and every
processed storable message has its key recorded, with any hit on a
pre-existing row guaranteed a non-empty Link either on the sheet or in the
backfill queue. -/
def IngestInv (game : String) (rows0 : List (List String)) (P : List Msg)
    (st : IngestState) : Prop :=
  st.keys = loadKeys rows0 ++ st.newRows.filterMap rowKey? ∧
  (∀ row ∈ st.newRows, row.getD 9 "" ≠ "" ∧
    ∃ k, rowKey? row = some k ∧ k ∉ loadKeys rows0) ∧
  (∀ u ∈ st.linkUpds, u.2 ≠ "" ∧ u.1 - 1 < rows0.length) ∧
  (∀ m ∈ P, _normalize_answer_for_key m.body ≠ "" →
    msgKey game m ∈ st.keys ∧
    (∀ i, lookupLast (keyRows rows0) (msgKey game m) = some i →
      ((rows0.getD (i - 1) []).getD 9 "" ≠ "" ∨ ∃ v, (i, v) ∈ st.linkUpds)))

lemma ingestStep_inv (game : String) (rows0 : List (List String))
    (hg : stripLower game ≠ "") (st : IngestState) (P : List Msg) (m : Msg)
    (hok : (∃ t, m.tsStr = fmtTs t) ∧ stripLower m.email ≠ "" ∧
      pyStrip m.body = m.body)
    (hinv : IngestInv game rows0 P st) :
    IngestInv game rows0 (P ++ [m])
      (ingestStep game rows0 (keyRows rows0) st m) := by
  unfold IngestInv at hinv ⊢
  obtain ⟨J1, J2, J3, J4⟩ := hinv
  simp only [ingestStep]
  by_cases ha : _normalize_answer_for_key m.body = ""
  · rw [if_pos ha]
    refine ⟨J1, J2, J3, ?_⟩
    intro m' hm' hne
    rcases List.mem_append.1 hm' with h | h
    · exact J4 m' h hne
    · rw [List.mem_singleton] at h
      subst h
      exact absurd ha hne
  · rw [if_neg ha]
    by_cases hk : msgKey game m ∈ st.keys
    · rw [if_pos hk]
      cases hl : lookupLast (keyRows rows0) (msgKey game m) with
      | none =>
        refine ⟨J1, J2, J3, ?_⟩
        intro m' hm' hne
        rcases List.mem_append.1 hm' with h | h
        · exact J4 m' h hne
        · rw [List.mem_singleton] at h
          subst h
          exact ⟨hk, fun i hi => by rw [hl] at hi; cases hi⟩
      | some rIdx =>
        dsimp only
        by_cases hcur : (rows0.getD (rIdx - 1) []).getD 9 "" = ""
        · rw [if_pos hcur]
          refine ⟨J1, J2, ?_, ?_⟩
          · intro u hu
            rcases List.mem_append.1 hu with h | h
            · exact J3 u h
            · rw [List.mem_singleton] at h
              subst h
              exact ⟨msgLink_ne_empty m.id,
                (lookupLast_keyRows_bounds rows0 _ rIdx hl).2.1⟩
          · intro m' hm' hne
            rcases List.mem_append.1 hm' with h | h
            · obtain ⟨hk1, hk2⟩ := J4 m' h hne
              refine ⟨hk1, fun i hi => ?_⟩
              rcases hk2 i hi with hc | ⟨v, hv⟩
              · exact Or.inl hc
              · exact Or.inr ⟨v, List.mem_append_left _ hv⟩
            · rw [List.mem_singleton] at h
              subst h
              refine ⟨hk, fun i hi => ?_⟩
              rw [hl] at hi
              injection hi with hi
              subst hi
              exact Or.inr ⟨msgLink m'.id,
                List.mem_append_right _ (List.mem_singleton_self _)⟩
        · rw [if_neg hcur]
          refine ⟨J1, J2, J3, ?_⟩
          intro m' hm' hne
          rcases List.mem_append.1 hm' with h | h
          · exact J4 m' h hne
          · rw [List.mem_singleton] at h
            subst h
            refine ⟨hk, fun i hi => ?_⟩
            rw [hl] at hi
            injection hi with hi
            subst hi
            exact Or.inl hcur
    · rw [if_neg hk]
      have hknot0 : msgKey game m ∉ loadKeys rows0 := by
        intro hc
        exact hk (J1 ▸ List.mem_append_left _ hc)
      have hrk : rowKey? (newRowFor game m) = some (msgKey game m) :=
        rowKey_newRow game m hg hok.1 hok.2.1 ha hok.2.2
      refine ⟨?_, ?_, J3, ?_⟩
      · show st.keys ++ [msgKey game m] =
          loadKeys rows0 ++ (st.newRows ++ [newRowFor game m]).filterMap rowKey?
        rw [List.filterMap_append, J1, List.append_assoc]
        congr 1
        congr 1
        simp [hrk]
      · intro row hrow
        rcases List.mem_append.1 hrow with h | h
        · exact J2 row h
        · rw [List.mem_singleton] at h
          subst h
          exact ⟨msgLink_ne_empty m.id, msgKey game m, hrk, hknot0⟩
      · intro m' hm' hne
        rcases List.mem_append.1 hm' with h | h
        · obtain ⟨hk1, hk2⟩ := J4 m' h hne
          exact ⟨List.mem_append_left _ hk1, hk2⟩
        · rw [List.mem_singleton] at h
          subst h
          refine ⟨List.mem_append_right _ (List.mem_singleton_self _),
            fun i hi => ?_⟩
          have hnone : lookupLast (keyRows rows0) (msgKey game m') = none :=
            lookupLast_eq_none _ _ (fun p hp hpk => hknot0 (by
              rw [loadKeys_eq_map_keyRows]
              exact List.mem_map.2 ⟨p, hp, hpk⟩))
          rw [hnone] at hi
          cases hi

lemma ingest_fold_inv (game : String) (rows0 : List (List String))
    (hg : stripLower game ≠ "") :
    ∀ (msgs P : List Msg) (st : IngestState),
      (∀ m ∈ msgs, (∃ t, m.tsStr = fmtTs t) ∧ stripLower m.email ≠ "" ∧
        pyStrip m.body = m.body) →
      IngestInv game rows0 P st →
      IngestInv game rows0 (P ++ msgs)
        (msgs.foldl (ingestStep game rows0 (keyRows rows0)) st) := by
  intro msgs
  induction msgs with
  | nil =>
    intro P st _ h
    simpa using h
  | cons m ms ih =>
    intro P st hok hinv
    rw [List.foldl_cons]
    have hstep := ingestStep_inv game rows0 hg st P m
      (hok m (List.mem_cons_self m ms)) hinv
    have hrest := ih (P ++ [m]) _
      (fun m' hm' => hok m' (List.mem_cons_of_mem m hm')) hstep
    rw [List.append_assoc, List.singleton_append] at hrest
    exact hrest

/-- The key map of the grid after a run: the original map extended by the
appended rows, whose 1-based sheet rows continue past the sheet. -/
lemma keyRows_applyLinks_append (rows0 new : List (List String))
    (upds : List (Nat × String)) (h2 : 2 ≤ rows0.length) :
    keyRows (applyLinks (rows0 ++ new) upds) =
      keyRows rows0 ++ keyRowsAux (rows0.length + 1) new := by
  unfold keyRows
  have hlen : ((applyLinks (rows0 ++ new) upds).drop 2).length =
      ((rows0 ++ new).drop 2).length := by
    rw [List.length_drop, List.length_drop, applyLinks_length]
  have hkeys : ∀ p, rowKey? (((applyLinks (rows0 ++ new) upds).drop 2).getD p [])
      = rowKey? (((rows0 ++ new).drop 2).getD p []) := by
    intro p
    rw [getD_drop, getD_drop, applyLinks_rowKey]
  rw [keyRowsAux_congr _ _ 3 hlen hkeys, List.drop_append_of_le_length h2,
    keyRowsAux_append, List.length_drop]
  have h3 : 3 + (rows0.length - 2) = rows0.length + 1 := by omega
  rw [h3]

/-- After a run whose loop state satisfies the invariant, every message of
the same mail source leaves the second run's loop state untouched: its key
is already on the sheet and the matching row's Link cell is non-empty. -/
lemma ingest_second_run_fixed (game : String) (rows0 : List (List String))
    (msgs : List Msg) (st1 : IngestState)
    (h2 : 2 ≤ rows0.length)
    (hinv : IngestInv game rows0 msgs st1) :
    ingestRun game (applyLinks (rows0 ++ st1.newRows) st1.linkUpds) msgs
      = applyLinks (rows0 ++ st1.newRows) st1.linkUpds := by
  unfold IngestInv at hinv
  obtain ⟨J1, J2, J3, J4⟩ := hinv
  have hkeyrows : keyRows (applyLinks (rows0 ++ st1.newRows) st1.linkUpds)
      = keyRows rows0 ++ keyRowsAux (rows0.length + 1) st1.newRows :=
    keyRows_applyLinks_append rows0 st1.newRows st1.linkUpds h2
  have hloadkeys : loadKeys (applyLinks (rows0 ++ st1.newRows) st1.linkUpds)
      = st1.keys := by
    rw [loadKeys_eq_map_keyRows, hkeyrows, List.map_append,
      ← loadKeys_eq_map_keyRows, keyRowsAux_map_fst, J1]
  apply ingestRun_of_fixed
  intro m hmm
  simp only [ingestStep]
  by_cases ha : _normalize_answer_for_key m.body = ""
  · rw [if_pos ha]
  · rw [if_neg ha]
    obtain ⟨hk1, hk2⟩ := J4 m hmm ha
    have hkmem : msgKey game m ∈
        loadKeys (applyLinks (rows0 ++ st1.newRows) st1.linkUpds) := by
      rw [hloadkeys]
      exact hk1
    rw [if_pos hkmem]
    cases hl : lookupLast (keyRows (applyLinks (rows0 ++ st1.newRows)
        st1.linkUpds)) (msgKey game m) with
    | none => rfl
    | some rIdx =>
      dsimp only
      have hne : (((applyLinks (rows0 ++ st1.newRows) st1.linkUpds).getD
          (rIdx - 1) []).getD 9 "" : String) ≠ "" := by
        rw [hkeyrows] at hl
        by_cases hk0 : msgKey game m ∈ loadKeys rows0
        · have hnewne : ∀ p ∈ keyRowsAux (rows0.length + 1) st1.newRows,
              p.1 ≠ msgKey game m := by
            intro p hp hpk
            rw [show p = (p.1, p.2) from rfl, hpk, mem_keyRowsAux] at hp
            obtain ⟨_, hlt, hkey⟩ := hp
            obtain ⟨_, k', hk', hknot⟩ := J2 _ (getD_mem st1.newRows _ [] hlt)
            rw [hkey] at hk'
            injection hk' with hk'
            exact hknot (hk' ▸ hk0)
          rw [lookupLast_append_right_nil _ _ _ hnewne] at hl
          obtain ⟨h3le, hblt, _⟩ := lookupLast_keyRows_bounds rows0 _ rIdx hl
          rcases hk2 rIdx hl with hcur | ⟨v, hv⟩
          · apply applyLinks_getD9_ne
            · rw [List.length_append]
              omega
            · exact fun u hu => (J3 u hu).1
            · left
              rw [getD_append_left _ _ _ _ hblt]
              exact hcur
          · apply applyLinks_getD9_ne
            · rw [List.length_append]
              omega
            · exact fun u hu => (J3 u hu).1
            · right
              exact ⟨(rIdx, v), hv, rfl⟩
        · have holdne : ∀ p ∈ keyRows rows0, p.1 ≠ msgKey game m := by
            intro p hp hpk
            exact hk0 (by
              rw [loadKeys_eq_map_keyRows]
              exact List.mem_map.2 ⟨p, hp, hpk⟩)
          rw [lookupLast_append_left_nil _ _ _ holdne] at hl
          have hmem := lookupLast_mem hl
          rw [mem_keyRowsAux] at hmem
          obtain ⟨hge, hlt, hkey⟩ := hmem
          obtain ⟨hlink, _⟩ := J2 _ (getD_mem st1.newRows _ [] hlt)
          rw [applyLinks_getD_untouched _ _ _ (fun u hu => by
            have hub := (J3 u hu).2
            omega)]
          rw [getD_append_right _ _ _ _ (by omega : rows0.length ≤ rIdx - 1)]
          have hidx : rIdx - 1 - rows0.length = rIdx - (rows0.length + 1) := by
            omega
          rw [hidx]
          exact hlink
      rw [if_neg hne]

/-- C7 (amended): ingestion is idempotent under the dedup key for messages
whose stored fields re-derive their key: the game label is non-blank, the
sender email is non-blank after strip/lowercase, the body carries no
leading or trailing whitespace, and the timestamp is in the `_TS_FMT`
layout the pipeline itself writes.  A second run of
`fetch_emails_for_label` over the same mail source then appends no rows
and queues no Link backfills, returning the grid unchanged. -/
theorem ingestion_idempotent (game : String) (rows0 : List (List String))
    (msgs : List Msg)
    (hg : stripLower game ≠ "")
    (h2 : 2 ≤ rows0.length)
    (hm : ∀ m ∈ msgs, (∃ t, m.tsStr = fmtTs t) ∧ stripLower m.email ≠ "" ∧
      pyStrip m.body = m.body) :
    ingestRun game (ingestRun game rows0 msgs) msgs
      = ingestRun game rows0 msgs := by
  have h0 : IngestInv game rows0 [] ⟨[], loadKeys rows0, []⟩ := by
    unfold IngestInv
    refine ⟨by simp, ?_, ?_, ?_⟩
    · intro row hrow
      exact absurd hrow (List.not_mem_nil row)
    · intro u hu
      exact absurd hu (List.not_mem_nil u)
    · intro m hmm
      exact absurd hmm (List.not_mem_nil m)
  have hinv := ingest_fold_inv game rows0 hg msgs [] ⟨[], loadKeys rows0, []⟩
    hm h0
  rw [List.nil_append] at hinv
  exact ingest_second_run_fixed game rows0 msgs
    (msgs.foldl (ingestStep game rows0 (keyRows rows0))
      ⟨[], loadKeys rows0, []⟩)
    h2 hinv

/-- C7 witness: a well-formed message (non-blank email, canonical
timestamp, stripped body) is ingested once; the second run returns the
grid unchanged. -/
theorem ingestion_idempotent_w :
    stripLower "Riddler" ≠ "" ∧
    ingestRun "Riddler"
      (ingestRun "Riddler" [subHeaders, []]
        [⟨"mid2", "01/02/2025 10:00 PM", "Ann", "B", "a@x.com", "lighthouse"⟩])
      [⟨"mid2", "01/02/2025 10:00 PM", "Ann", "B", "a@x.com", "lighthouse"⟩]
      = ingestRun "Riddler" [subHeaders, []]
        [⟨"mid2", "01/02/2025 10:00 PM", "Ann", "B", "a@x.com", "lighthouse"⟩] :=
  ⟨by decide, ingestion_idempotent "Riddler" [subHeaders, []]
    [⟨"mid2", "01/02/2025 10:00 PM", "Ann", "B", "a@x.com", "lighthouse"⟩]
    (by decide) (by decide)
    (by
      intro m hm
      rw [List.mem_singleton] at hm
      subst hm
      exact ⟨⟨⟨1, 2, 2025, 10, 0, true⟩, by decide⟩, by decide, by decide⟩)⟩

end GamesAuto
